import Mathlib

/-!
# AVL tree of `BinaryTrees/AVLTree/avltree.hpp`

A shallow embedding of the class template `AVLTree<T, Comparer>`.

* A node pointer `AVLTreeNodePtr` is a value of `Tree α`; `nullptr` is `Tree.nil`.
* `Comparer()(a, b)` is a function `lt : α → α → Bool`.
* `size_type` is `std::size_t`, taken as a 64-bit unsigned word, and `int` as a
  32-bit two's complement word: arithmetic on them is written with explicit
  wrap-around.
* A dereference of `nullptr` is the result `none`.
* The member `m_size` is threaded through `removeImpl` explicitly.
-/

namespace AVLTree

/-- Node graph owned through `AVLTreeNodePtr`: `nil` is `nullptr`, `node` carries the
fields of `AVLTreeNode` in declaration order. -/
inductive Tree (α : Type) where
  | nil : Tree α
  | node (element : α) (left : Tree α) (right : Tree α) (height : Nat) : Tree α
deriving DecidableEq

/-- Number of values of `std::size_t` (64-bit). -/
def SIZE_MOD : Nat := 18446744073709551616

/-- The constant `ALLOWED_UNBALANCE`. -/
def ALLOWED_UNBALANCE : Int := 1

/-- Conversion of an integer value to `int` (32-bit two's complement). -/
def toInt (z : Int) : Int := (z + 2147483648) % 4294967296 - 2147483648

/-- Conversion of an integer value to `std::size_t`. -/
def toSize (z : Int) : Nat := (z % 18446744073709551616).toNat

/-- The expression `static_cast<int>(a) - b` stored in an `int`, for `a b : size_type`:
the cast operand is converted back to `size_type` by the usual arithmetic
conversions, the subtraction wraps, and the initialisation converts to `int`. -/
def castDiff (a b : Nat) : Int := toInt (toSize (toInt a - b))

/-- The expression `std::max(a, b) + 1` on `size_type`. -/
def maxPlusOne (a b : Nat) : Nat := (max a b + 1) % SIZE_MOD

variable {α : Type}

/-- Member `height(t)`: the cached field, `0` for `nullptr`. -/
def height : Tree α → Nat
  | .nil => 0
  | .node _ _ _ h => h

/-- Member `rotateLeftChild(k2)`. The test `if(k2)` comes after `k2->left` has been
read and always holds there; `k1->right` is read without a test of `k1`. -/
def rotateLeftChild : Tree α → Option (Tree α)
  | .nil => none
  | .node _ .nil _ _ => none
  | .node x2 (.node x1 l1 r1 _) r2 _ =>
    let k2h := maxPlusOne (height r1) (height r2)
    let k1h := maxPlusOne (height l1) k2h
    some (.node x1 l1 (.node x2 r1 r2 k2h) k1h)

/-- Member `rotateRightChild(k2)`; guarded by `if(k1)`. -/
def rotateRightChild : Tree α → Option (Tree α)
  | .nil => none
  | .node x2 l2 .nil h2 => some (.node x2 l2 .nil h2)
  | .node x2 l2 (.node x1 l1 r1 _) _ =>
    let k2h := maxPlusOne (height l1) (height l2)
    let k1h := maxPlusOne (height r1) k2h
    some (.node x1 (.node x2 l2 l1 k2h) r1 k1h)

/-- Member `doubleRotateRightChild(k)`. -/
def doubleRotateRightChild : Tree α → Option (Tree α)
  | .nil => none
  | .node x l r h =>
    (rotateRightChild l).bind fun l1 => rotateLeftChild (.node x l1 r h)

/-- Member `doubleRotateLeftChild(k)`. -/
def doubleRotateLeftChild : Tree α → Option (Tree α)
  | .nil => none
  | .node x l r h =>
    (rotateLeftChild r).bind fun r1 => rotateRightChild (.node x l r1 h)

/-- The rotation chosen by the `if`/`else if` of `balance` on a non-null node. -/
def balanceRotate : Tree α → Option (Tree α)
  | .nil => none
  | .node x l r h =>
    let lrh := castDiff (height l) (height r)
    let rlh := castDiff (height r) (height l)
    if lrh > ALLOWED_UNBALANCE then
      match l with
      | .nil => none
      | .node _ ll lr _ =>
        if height ll ≥ height lr then rotateLeftChild (.node x l r h)
        else doubleRotateRightChild (.node x l r h)
    else if rlh > ALLOWED_UNBALANCE then
      match r with
      | .nil => none
      | .node _ rl rr _ =>
        if height rr ≥ height rl then rotateRightChild (.node x l r h)
        else doubleRotateLeftChild (.node x l r h)
    else some (.node x l r h)

/-- The final assignment `t->height = std::max(height(t->left), height(t->right)) + 1`. -/
def setHeight : Tree α → Option (Tree α)
  | .nil => none
  | .node x l r _ => some (.node x l r (maxPlusOne (height l) (height r)))

/-- Member `balance(t)`. -/
def balance : Tree α → Option (Tree α)
  | .nil => some .nil
  | .node x l r h => (balanceRotate (.node x l r h)).bind setHeight

/-- Member `insertImpl(root, elem)`; the new node is built with the default `h = 0`. -/
def insertImpl (lt : α → α → Bool) : Tree α → α → Option (Tree α)
  | .nil, elem => balance (.node elem .nil .nil 0)
  | .node x l r h, elem =>
    if lt x elem then
      (insertImpl lt r elem).bind fun r1 => balance (.node x l r1 h)
    else
      (insertImpl lt l elem).bind fun l1 => balance (.node x l1 r h)

/-- Member `searchImpl(root, elem)`: the element pointed to, `none` for `nullptr`. -/
def searchImpl (lt : α → α → Bool) : Tree α → α → Option α
  | .nil, _ => none
  | .node x l r _, elem =>
    if lt x elem then searchImpl lt r elem
    else if lt elem x then searchImpl lt l elem
    else some x

/-- Member `__minimum(root)`: one step to the left when there is a left child. -/
def __minimum : Tree α → Option (Tree α)
  | .nil => none
  | .node x .nil r h => some (.node x .nil r h)
  | .node _ (.node lx ll lr lh) _ _ => some (.node lx ll lr lh)

/-- The expression `temp->element`. -/
def element? : Tree α → Option α
  | .nil => none
  | .node x _ _ _ => some x

/-- The statement `m_size--` on `std::size_t`. -/
def decSize (n : Nat) : Nat := (n + (SIZE_MOD - 1)) % SIZE_MOD

/-- The statement `m_size++` on `std::size_t`. -/
def incSize (n : Nat) : Nat := (n + 1) % SIZE_MOD

/-- Member `removeImpl(root, elem)`; the second component is `m_size`. -/
def removeImpl (lt : α → α → Bool) : Tree α → α → Nat → Option (Tree α × Nat)
  | .nil, _, sz => some (.nil, sz)
  | .node key l r h, elem, sz =>
    if lt elem key then
      (removeImpl lt l elem sz).bind fun p =>
        (balance (.node key p.1 r h)).map fun t1 => (t1, p.2)
    else if lt key elem then
      (removeImpl lt r elem sz).bind fun p =>
        (balance (.node key l p.1 h)).map fun t1 => (t1, p.2)
    else
      match l, r with
      | .nil, .nil => some (.nil, decSize sz)
      | .node lx ll lr lh, .node rx rl rr rh =>
        ((__minimum (.node rx rl rr rh)).bind element?).bind fun e =>
          (removeImpl lt (.node rx rl rr rh) e sz).bind fun p =>
            (balance (.node e (.node lx ll lr lh) p.1 h)).map fun t1 => (t1, decSize p.2)
      | .nil, .node rx rl rr rh =>
        (balance (.node rx rl rr rh)).map fun t1 => (t1, decSize sz)
      | .node lx ll lr lh, .nil =>
        (balance (.node lx ll lr lh)).map fun t1 => (t1, decSize sz)

/-- Member `toContainerImpl(c, root)` with `c` a sequence container. -/
def toContainerImpl (c : List α) : Tree α → List α
  | .nil => c
  | .node x l r _ => toContainerImpl (toContainerImpl c l ++ [x]) r

/-- Data members of the class: `m_root` and `m_size`. -/
structure AVL (α : Type) where
  m_root : Tree α
  m_size : Nat
deriving DecidableEq

/-- Default constructor `AVLTree()`. -/
def AVL.empty : AVL α := ⟨.nil, 0⟩

/-- Member `insert(elem)`. -/
def AVL.insert (lt : α → α → Bool) (t : AVL α) (elem : α) : Option (AVL α) :=
  (insertImpl lt t.m_root elem).map fun r => ⟨r, incSize t.m_size⟩

/-- Member `remove(elem)`. -/
def AVL.remove (lt : α → α → Bool) (t : AVL α) (elem : α) : Option (AVL α) :=
  (removeImpl lt t.m_root elem t.m_size).map fun p => ⟨p.1, p.2⟩

/-- Member `find(elem)`. -/
def AVL.find (lt : α → α → Bool) (t : AVL α) (elem : α) : Option α :=
  searchImpl lt t.m_root elem

/-- Member `isEmpty()`: `m_root == nullptr`. -/
def AVL.isEmpty (t : AVL α) : Bool :=
  match t.m_root with
  | .nil => true
  | .node _ _ _ _ => false

/-- Member `size()`. -/
def AVL.size (t : AVL α) : Nat := t.m_size

/-- Member `toContainer()`. -/
def AVL.toContainer (t : AVL α) : List α := toContainerImpl [] t.m_root

/-- State of a `const_iterator`: the stack `st` (top first) and `cur`. -/
structure const_iterator (α : Type) where
  st : List (Tree α)
  cur : Tree α
deriving DecidableEq

/-- Member `fill_stack(p_root)`, acting on the stack. -/
def fill_stack (st : List (Tree α)) : Tree α → List (Tree α)
  | .nil => st
  | .node x l r h => fill_stack (.node x l r h :: st) l

/-- Constructor `const_iterator(p_root)`. -/
def const_iterator.ctor (p_root : Tree α) : const_iterator α :=
  match fill_stack [] p_root with
  | [] => ⟨[], .nil⟩
  | top :: rest => ⟨rest, top⟩

/-- Member `operator++` of the iterator. -/
def const_iterator.increment (it : const_iterator α) : Option (const_iterator α) :=
  match it.st with
  | [] => some ⟨[], .nil⟩
  | top :: rest =>
    match top with
    | .nil => none
    | .node x l r h => some ⟨fill_stack rest r, .node x l r h⟩

/-- Member `begin()`. -/
def AVL.begin (t : AVL α) : const_iterator α := const_iterator.ctor t.m_root

/-- Member `end()`. -/
def AVL.end (_t : AVL α) : const_iterator α := const_iterator.ctor .nil

/-- The caller's loop `for (it = begin(); it != end(); ++it) out.push_back(*it)`,
run for at most `fuel` increments; `it != end()` compares `cur` with `nullptr`.
The result is `none` when the fuel runs out or a null pointer is dereferenced. -/
def iterate : Nat → const_iterator α → Option (List α)
  | fuel, ⟨st, cur⟩ =>
    match cur with
    | .nil => some []
    | .node x _ _ _ =>
      match fuel with
      | 0 => none
      | fuel1 + 1 =>
        (const_iterator.increment ⟨st, cur⟩).bind fun it1 =>
          (iterate fuel1 it1).map fun xs => x :: xs

/-- A call of the mutating public interface. -/
inductive Op (α : Type) where
  | insert (elem : α) : Op α
  | remove (elem : α) : Op α
deriving DecidableEq

/-- One call applied to a tree. -/
def AVL.step (lt : α → α → Bool) (t : AVL α) : Op α → Option (AVL α)
  | .insert e => t.insert lt e
  | .remove e => t.remove lt e

/-- A sequence of calls applied in order, starting from the tree `t`. -/
def AVL.runFrom (lt : α → α → Bool) : AVL α → List (Op α) → Option (AVL α)
  | t, [] => some t
  | t, op :: ops => (t.step lt op).bind fun t1 => AVL.runFrom lt t1 ops

/-- A sequence of calls applied to an initially empty tree. -/
def AVL.run (lt : α → α → Bool) (ops : List (Op α)) : Option (AVL α) :=
  AVL.runFrom lt AVL.empty ops

/-- Member `clone(other)`: every new node is built with the default `h = 0`. -/
def clone : Tree α → Tree α
  | .nil => .nil
  | .node x l r _ => .node x (clone l) (clone r) 0

/-- Copy constructor `AVLTree(const AVLTree& tree)`. -/
def AVL.copy (tree : AVL α) : AVL α := ⟨clone tree.m_root, tree.size⟩

/-- Move constructor `AVLTree(AVLTree&& tree)`: the new object, then the source as
it is left behind. -/
def AVL.move (tree : AVL α) : AVL α × AVL α :=
  (⟨tree.m_root, tree.m_size⟩, ⟨.nil, 0⟩)

/-- Member `searchImpl(root, elem)` of the first copy, `AVLTree/avltree.hpp`: both
tests are `Comparer()(root->element, elem)`. The node type, `insertImpl`, `balance`
and the rotations of that copy are those embedded above. -/
def FirstCopy.searchImpl (lt : α → α → Bool) : Tree α → α → Option α
  | .nil, _ => none
  | .node x l r _, elem =>
    if lt x elem then FirstCopy.searchImpl lt r elem
    else if lt x elem then FirstCopy.searchImpl lt l elem
    else some x

/-- Member `find(elem)` of the first copy; its root member `head` is `m_root` here. -/
def FirstCopy.find (lt : α → α → Bool) (t : AVL α) (elem : α) : Option α :=
  FirstCopy.searchImpl lt t.m_root elem

/-! ## Specification vocabulary -/

/-- True height of a subtree: empty = 0, leaf = 1. -/
def realHeight : Tree α → Nat
  | .nil => 0
  | .node _ l r _ => max (realHeight l) (realHeight r) + 1

/-- Number of nodes reachable from a root. -/
def nodes : Tree α → Nat
  | .nil => 0
  | .node _ l r _ => nodes l + nodes r + 1

/-- In-order sequence of the elements: left subtree, node, right subtree. -/
def inorder : Tree α → List α
  | .nil => []
  | .node x l r _ => inorder l ++ x :: inorder r

/-- AVL balance invariant on true heights, at every node. -/
def Balanced : Tree α → Prop
  | .nil => True
  | .node _ l r _ =>
    Balanced l ∧ Balanced r ∧
      realHeight l ≤ realHeight r + 1 ∧ realHeight r ≤ realHeight l + 1

/-- Cached height invariant: every height field is `1 + max` of the children's
fields (`0` for an absent child). -/
def CachedOk : Tree α → Prop
  | .nil => True
  | .node _ l r h => CachedOk l ∧ CachedOk r ∧ h = max (height l) (height r) + 1

/-- Shape invariant of the class: cached heights are right and the tree is balanced. -/
def Valid (t : Tree α) : Prop := CachedOk t ∧ Balanced t

/-- BST ordering invariant at every node: nothing in the left subtree is greater
than the node, nothing in the right subtree is less. -/
def IsBST (lt : α → α → Bool) : Tree α → Prop
  | .nil => True
  | .node x l r _ =>
    IsBST lt l ∧ IsBST lt r ∧
      (∀ y ∈ inorder l, lt x y = false) ∧ (∀ y ∈ inorder r, lt y x = false)

/-- A sequence is non-decreasing under `lt`: no later element is less than an
earlier one. -/
def NonDecreasing (lt : α → α → Bool) (xs : List α) : Prop :=
  List.Pairwise (fun a b => lt b a = false) xs

/-- Strict weak ordering: irreflexive, transitive, incomparability transitive. -/
structure StrictWeakOrder (lt : α → α → Bool) : Prop where
  irrefl : ∀ a, lt a a = false
  trans : ∀ a b c, lt a b = true → lt b c = true → lt a c = true
  incomp_trans : ∀ a b c, lt a b = false → lt b a = false → lt b c = false →
    lt c b = false → lt a c = false ∧ lt c a = false

/-- Bound on heights under which no height computation wraps. -/
def HEIGHT_BOUND : Nat := 2147483640

/-- Shape of a node graph: where the nodes are, without elements and heights. -/
inductive Shape where
  | leaf : Shape
  | fork (left : Shape) (right : Shape) : Shape
deriving DecidableEq

/-- Shape of a subtree. -/
def shape : Tree α → Shape
  | .nil => .leaf
  | .node _ l r _ => .fork (shape l) (shape r)

/-- Every cached height field in the subtree is below `m`. -/
def CachedBelow (m : Nat) : Tree α → Prop
  | .nil => True
  | .node _ l r h => h < m ∧ CachedBelow m l ∧ CachedBelow m r

/-- Leftmost node of a subtree, found by following `left` links to the end. -/
def leftmostNode : Tree α → Tree α
  | .nil => .nil
  | .node x .nil r h => .node x .nil r h
  | .node _ (.node lx ll lr lh) _ _ => leftmostNode (.node lx ll lr lh)

/-- The element `b` is equivalent to `a`: neither compares less than the other. -/
def Equivalent (lt : α → α → Bool) (a b : α) : Prop := lt a b = false ∧ lt b a = false

instance instDecidableEquivalent (lt : α → α → Bool) (a b : α) :
    Decidable (Equivalent lt a b) :=
  inferInstanceAs (Decidable (lt a b = false ∧ lt b a = false))

/-- The comparison `std::less<int>` on naturals, for the concrete scenarios. -/
def ltNat : Nat → Nat → Bool := fun a b => decide (a < b)

/-! ## Arithmetic of the machine words -/

theorem castDiff_eq (a b : Nat) (ha : a < 2147483648) (hb : b < 2147483648) :
    castDiff a b = (a : Int) - b := by
  unfold castDiff toInt toSize
  omega

theorem maxPlusOne_eq (a b : Nat) (ha : a < 2147483648) (hb : b < 2147483648) :
    maxPlusOne a b = max a b + 1 := by
  unfold maxPlusOne SIZE_MOD
  omega

theorem castDiff_gt (a b : Nat) (ha : a < 2147483648) (hb : b < 2147483648) :
    castDiff a b > ALLOWED_UNBALANCE ↔ b + 1 < a := by
  rw [castDiff_eq a b ha hb]
  unfold ALLOWED_UNBALANCE
  omega

section General

attribute [local irreducible] castDiff maxPlusOne

/-! ## In-order sequence -/

theorem toContainerImpl_eq (t : Tree α) : ∀ c : List α, toContainerImpl c t = c ++ inorder t := by
  induction t with
  | nil => intro c; simp [toContainerImpl, inorder]
  | node x l r h ihl ihr => intro c; simp [toContainerImpl, inorder, ihl, ihr]

theorem toContainer_eq (t : AVL α) : t.toContainer = inorder t.m_root := by
  simp [AVL.toContainer, toContainerImpl_eq]

theorem rotateLeftChild_inorder {t t1 : Tree α} (h : rotateLeftChild t = some t1) :
    inorder t1 = inorder t := by
  match t, h with
  | .node x2 (.node x1 l1 r1 _) r2 _, h =>
    simp only [rotateLeftChild, Option.some.injEq] at h
    subst h
    simp [inorder]

theorem rotateRightChild_inorder {t t1 : Tree α} (h : rotateRightChild t = some t1) :
    inorder t1 = inorder t := by
  match t, h with
  | .node x2 l2 .nil h2, h =>
    simp only [rotateRightChild, Option.some.injEq] at h
    subst h
    rfl
  | .node x2 l2 (.node x1 l1 r1 _) _, h =>
    simp only [rotateRightChild, Option.some.injEq] at h
    subst h
    simp [inorder]

theorem doubleRotateRightChild_inorder {t t1 : Tree α} (h : doubleRotateRightChild t = some t1) :
    inorder t1 = inorder t := by
  match t, h with
  | .node x l r hh, h =>
    simp only [doubleRotateRightChild, Option.bind_eq_some] at h
    obtain ⟨l1, hl, h⟩ := h
    rw [rotateLeftChild_inorder h]
    simp [inorder, rotateRightChild_inorder hl]

theorem doubleRotateLeftChild_inorder {t t1 : Tree α} (h : doubleRotateLeftChild t = some t1) :
    inorder t1 = inorder t := by
  match t, h with
  | .node x l r hh, h =>
    simp only [doubleRotateLeftChild, Option.bind_eq_some] at h
    obtain ⟨r1, hr, h⟩ := h
    rw [rotateRightChild_inorder h]
    simp [inorder, rotateLeftChild_inorder hr]

theorem setHeight_inorder {t t1 : Tree α} (h : setHeight t = some t1) :
    inorder t1 = inorder t := by
  match t, h with
  | .node x l r hh, h =>
    simp only [setHeight, Option.some.injEq] at h
    subst h
    rfl

theorem balanceRotate_inorder {t t1 : Tree α} (h : balanceRotate t = some t1) :
    inorder t1 = inorder t := by
  match t, h with
  | .node x l r hh, h =>
    simp only [balanceRotate] at h
    split at h
    · split at h
      · exact absurd h (by simp)
      · split at h
        · exact rotateLeftChild_inorder h
        · exact doubleRotateRightChild_inorder h
    · split at h
      · split at h
        · exact absurd h (by simp)
        · split at h
          · exact rotateRightChild_inorder h
          · exact doubleRotateLeftChild_inorder h
      · simp only [Option.some.injEq] at h
        subst h
        rfl

theorem balance_nil : balance (.nil : Tree α) = some .nil := by
  simp only [balance]

theorem balance_node (x : α) (l r : Tree α) (h : Nat) :
    balance (.node x l r h) = (balanceRotate (.node x l r h)).bind setHeight := by
  simp only [balance]

theorem balance_inorder {t t1 : Tree α} (h : balance t = some t1) :
    inorder t1 = inorder t := by
  cases t with
  | nil =>
    rw [balance_nil] at h
    rw [← Option.some.inj h]
  | node x l r hh =>
    rw [balance_node, Option.bind_eq_some] at h
    obtain ⟨t2, h2, h⟩ := h
    rw [setHeight_inorder h, balanceRotate_inorder h2]

/-! ## Rebalancing -/

theorem height_eq_realHeight {t : Tree α} (h : CachedOk t) : height t = realHeight t := by
  induction t with
  | nil => rfl
  | node x l r hh ihl ihr =>
    obtain ⟨hl, hr, he⟩ := h
    show hh = max (realHeight l) (realHeight r) + 1
    rw [he, ihl hl, ihr hr]

theorem valid_nil : Valid (.nil : Tree α) := ⟨trivial, trivial⟩

theorem valid_node_iff (x : α) (l r : Tree α) (h : Nat) :
    Valid (.node x l r h) ↔ Valid l ∧ Valid r ∧ h = max (height l) (height r) + 1 ∧
      height l ≤ height r + 1 ∧ height r ≤ height l + 1 := by
  constructor
  · rintro ⟨⟨cl, cr, he⟩, bl, br, b1, b2⟩
    rw [← height_eq_realHeight cl, ← height_eq_realHeight cr] at b1 b2
    exact ⟨⟨cl, bl⟩, ⟨cr, br⟩, he, b1, b2⟩
  · rintro ⟨⟨cl, bl⟩, ⟨cr, br⟩, he, b1, b2⟩
    refine ⟨⟨cl, cr, he⟩, bl, br, ?_, ?_⟩
    · rw [← height_eq_realHeight cl, ← height_eq_realHeight cr]; exact b1
    · rw [← height_eq_realHeight cl, ← height_eq_realHeight cr]; exact b2

theorem height_node (x : α) (l r : Tree α) (h : Nat) : height (.node x l r h) = h := rfl

theorem height_nil : height (.nil : Tree α) = 0 := rfl

theorem balanceRotate_keep (x : α) (l r : Tree α) (h : Nat)
    (bl : height l < 2147483648) (br : height r < 2147483648)
    (h1 : height l ≤ height r + 1) (h2 : height r ≤ height l + 1) :
    balanceRotate (.node x l r h) = some (.node x l r h) := by
  simp only [balanceRotate]
  rw [if_neg, if_neg]
  · rw [castDiff_gt _ _ br bl]; omega
  · rw [castDiff_gt _ _ bl br]; omega

theorem balance_keep (x : α) (l r : Tree α) (h : Nat)
    (bl : height l < 2147483640) (br : height r < 2147483640)
    (h1 : height l ≤ height r + 1) (h2 : height r ≤ height l + 1) :
    balance (.node x l r h) = some (.node x l r (max (height l) (height r) + 1)) := by
  rw [balance_node, balanceRotate_keep x l r h (by omega) (by omega) h1 h2]
  simp only [Option.some_bind, setHeight]
  rw [maxPlusOne_eq _ _ (by omega) (by omega)]

theorem balance_left_single (x lx : α) (ll lr r : Tree α) (h lh : Nat)
    (bll : height ll < 2147483640) (blr : height lr < 2147483640)
    (bl : lh < 2147483640) (br : height r < 2147483640)
    (h1 : height r + 1 < lh) (h2 : height lr ≤ height ll) :
    balance (.node x (.node lx ll lr lh) r h) =
      some (.node lx ll (.node x lr r (max (height lr) (height r) + 1))
        (max (height ll) (max (height lr) (height r) + 1) + 1)) := by
  rw [balance_node]
  simp only [balanceRotate, height_node]
  rw [if_pos ((castDiff_gt _ _ (by omega) (by omega)).2 h1), if_pos (by omega)]
  simp only [rotateLeftChild, Option.some_bind, setHeight, height_node]
  simp (disch := omega) only [maxPlusOne_eq]

theorem balance_left_double (x lx lrx : α) (ll lrl lrr r : Tree α) (h lh lrh : Nat)
    (bll : height ll < 2147483640) (blrl : height lrl < 2147483640)
    (blrr : height lrr < 2147483640)
    (bl : lh < 2147483640) (br : height r < 2147483640)
    (h1 : height r + 1 < lh) (h2 : height ll < lrh) :
    balance (.node x (.node lx ll (.node lrx lrl lrr lrh) lh) r h) =
      some (.node lrx (.node lx ll lrl (max (height lrl) (height ll) + 1))
        (.node x lrr r (max (height lrr) (height r) + 1))
        (max (max (height lrl) (height ll) + 1) (max (height lrr) (height r) + 1) + 1)) := by
  rw [balance_node]
  simp only [balanceRotate, height_node]
  rw [if_pos ((castDiff_gt _ _ (by omega) (by omega)).2 h1), if_neg (by omega)]
  simp only [doubleRotateRightChild, rotateRightChild, rotateLeftChild, Option.some_bind,
    setHeight, height_node]
  simp (disch := omega) only [maxPlusOne_eq]

theorem balance_right_single (x rx : α) (l rl rr : Tree α) (h rh : Nat)
    (brl : height rl < 2147483640) (brr : height rr < 2147483640)
    (bl : height l < 2147483640) (br : rh < 2147483640)
    (h1 : height l + 1 < rh) (h2 : height rl ≤ height rr) :
    balance (.node x l (.node rx rl rr rh) h) =
      some (.node rx (.node x l rl (max (height rl) (height l) + 1)) rr
        (max (max (height rl) (height l) + 1) (height rr) + 1)) := by
  rw [balance_node]
  simp only [balanceRotate, height_node]
  rw [if_neg (by rw [castDiff_gt _ _ (by omega) (by omega)]; omega),
    if_pos ((castDiff_gt _ _ (by omega) (by omega)).2 h1), if_pos (by omega)]
  simp only [rotateRightChild, Option.some_bind, setHeight, height_node]
  simp (disch := omega) only [maxPlusOne_eq]

theorem balance_right_double (x rx rlx : α) (l rll rlr rr : Tree α) (h rh rlh : Nat)
    (brll : height rll < 2147483640) (brlr : height rlr < 2147483640)
    (brr : height rr < 2147483640)
    (bl : height l < 2147483640) (br : rh < 2147483640)
    (h1 : height l + 1 < rh) (h2 : height rr < rlh) :
    balance (.node x l (.node rx (.node rlx rll rlr rlh) rr rh) h) =
      some (.node rlx (.node x l rll (max (height rll) (height l) + 1))
        (.node rx rlr rr (max (height rlr) (height rr) + 1))
        (max (max (height rll) (height l) + 1) (max (height rlr) (height rr) + 1) + 1)) := by
  rw [balance_node]
  simp only [balanceRotate, height_node]
  rw [if_neg (by rw [castDiff_gt _ _ (by omega) (by omega)]; omega),
    if_pos ((castDiff_gt _ _ (by omega) (by omega)).2 h1), if_neg (by omega)]
  simp only [doubleRotateLeftChild, rotateRightChild, rotateLeftChild, Option.some_bind,
    setHeight, height_node]
  simp (disch := omega) only [maxPlusOne_eq]

theorem balance_spec (x : α) (l r : Tree α) (h : Nat) (vl : Valid l) (vr : Valid r)
    (bl : height l < 2147483640) (br : height r < 2147483640)
    (d1 : height l ≤ height r + 2) (d2 : height r ≤ height l + 2) :
    ∃ t1, balance (.node x l r h) = some t1 ∧ Valid t1 ∧
      (height t1 = max (height l) (height r) + 1 ∨
        (height t1 = max (height l) (height r) ∧
          (height r + 2 = height l ∨ height l + 2 = height r))) := by
  by_cases c : height l ≤ height r + 1 ∧ height r ≤ height l + 1
  · refine ⟨_, balance_keep x l r h bl br c.1 c.2, ?_, Or.inl rfl⟩
    exact (valid_node_iff _ _ _ _).2 ⟨vl, vr, rfl, c.1, c.2⟩
  · by_cases cl : height r + 1 < height l
    · cases l with
      | nil => simp only [height_nil] at cl; omega
      | node lx ll lr lh =>
        obtain ⟨vll, vlr, hlh, b1, b2⟩ := (valid_node_iff _ _ _ _).1 vl
        simp only [height_node] at *
        by_cases c2 : height lr ≤ height ll
        · refine ⟨_, balance_left_single x lx ll lr r h lh (by omega) (by omega) bl br cl c2, ?_, ?_⟩
          · refine (valid_node_iff _ _ _ _).2 ⟨vll, ?_, ?_, ?_, ?_⟩
            · exact (valid_node_iff _ _ _ _).2 ⟨vlr, vr, rfl, by omega, by omega⟩
            · simp only [height_node]
            · simp only [height_node]; omega
            · simp only [height_node]; omega
          · simp only [height_node]; omega
        · cases lr with
          | nil => simp only [height_nil] at c2; omega
          | node lrx lrl lrr lrh =>
            obtain ⟨vlrl, vlrr, hlrh, b3, b4⟩ := (valid_node_iff _ _ _ _).1 vlr
            simp only [height_node] at *
            refine ⟨_, balance_left_double x lx lrx ll lrl lrr r h lh lrh (by omega) (by omega)
              (by omega) bl br cl (by omega), ?_, ?_⟩
            · refine (valid_node_iff _ _ _ _).2 ⟨?_, ?_, ?_, ?_, ?_⟩
              · exact (valid_node_iff _ _ _ _).2 ⟨vll, vlrl, by rw [max_comm], by omega, by omega⟩
              · exact (valid_node_iff _ _ _ _).2 ⟨vlrr, vr, rfl, by omega, by omega⟩
              · simp only [height_node]
              · simp only [height_node]; omega
              · simp only [height_node]; omega
            · simp only [height_node]; omega
    · have cr : height l + 1 < height r := by omega
      cases r with
      | nil => simp only [height_nil] at cr; omega
      | node rx rl rr rh =>
        obtain ⟨vrl, vrr, hrh, b1, b2⟩ := (valid_node_iff _ _ _ _).1 vr
        simp only [height_node] at *
        by_cases c2 : height rl ≤ height rr
        · refine ⟨_, balance_right_single x rx l rl rr h rh (by omega) (by omega) bl br cr c2, ?_, ?_⟩
          · refine (valid_node_iff _ _ _ _).2 ⟨?_, vrr, ?_, ?_, ?_⟩
            · exact (valid_node_iff _ _ _ _).2 ⟨vl, vrl, by rw [max_comm], by omega, by omega⟩
            · simp only [height_node]
            · simp only [height_node]; omega
            · simp only [height_node]; omega
          · simp only [height_node]; omega
        · cases rl with
          | nil => simp only [height_nil] at c2; omega
          | node rlx rll rlr rlh =>
            obtain ⟨vrll, vrlr, hrlh, b3, b4⟩ := (valid_node_iff _ _ _ _).1 vrl
            simp only [height_node] at *
            refine ⟨_, balance_right_double x rx rlx l rll rlr rr h rh rlh (by omega) (by omega)
              (by omega) bl br cr (by omega), ?_, ?_⟩
            · refine (valid_node_iff _ _ _ _).2 ⟨?_, ?_, ?_, ?_, ?_⟩
              · exact (valid_node_iff _ _ _ _).2 ⟨vl, vrll, by rw [max_comm], by omega, by omega⟩
              · exact (valid_node_iff _ _ _ _).2 ⟨vrlr, vrr, rfl, by omega, by omega⟩
              · simp only [height_node]
              · simp only [height_node]; omega
              · simp only [height_node]; omega
            · simp only [height_node]; omega

/-! ## Insertion -/

theorem balance_valid {t : Tree α} (v : Valid t) (b : height t < 2147483640) :
    balance t = some t := by
  cases t with
  | nil => exact balance_nil
  | node x l r h =>
    obtain ⟨_, _, hh, b1, b2⟩ := (valid_node_iff _ _ _ _).1 v
    simp only [height_node] at b
    rw [balance_keep x l r h (by omega) (by omega) b1 b2, hh]

theorem insertImpl_nil (lt : α → α → Bool) (e : α) :
    insertImpl lt .nil e = balance (.node e .nil .nil 0) := by
  simp only [insertImpl]

theorem insertImpl_node (lt : α → α → Bool) (x : α) (l r : Tree α) (h : Nat) (e : α) :
    insertImpl lt (.node x l r h) e =
      if lt x e then (insertImpl lt r e).bind fun r1 => balance (.node x l r1 h)
      else (insertImpl lt l e).bind fun l1 => balance (.node x l1 r h) := by
  simp only [insertImpl]

theorem insertImpl_spec (lt : α → α → Bool) (e : α) (t : Tree α) (v : Valid t)
    (b : height t < 2147483630) :
    ∃ t1, insertImpl lt t e = some t1 ∧ Valid t1 ∧
      (height t1 = height t ∨ height t1 = height t + 1) := by
  induction t with
  | nil =>
    refine ⟨.node e .nil .nil 1, ?_, ?_, Or.inr rfl⟩
    · rw [insertImpl_nil]
      exact balance_keep e .nil .nil 0 (by simp [height_nil]) (by simp [height_nil])
        (by simp) (by simp)
    · exact (valid_node_iff _ _ _ _).2 ⟨valid_nil, valid_nil, rfl, by simp, by simp⟩
  | node x l r h ihl ihr =>
    obtain ⟨vl, vr, hh, b1, b2⟩ := (valid_node_iff _ _ _ _).1 v
    simp only [height_node] at b ⊢
    rw [insertImpl_node]
    by_cases c : lt x e = true
    · obtain ⟨r1, hr1, vr1, hd⟩ := ihr vr (by omega)
      obtain ⟨t1, ht1, vt1, hd1⟩ := balance_spec x l r1 h vl vr1 (by omega) (by omega)
        (by omega) (by omega)
      refine ⟨t1, ?_, vt1, ?_⟩
      · rw [if_pos c, hr1, Option.some_bind, ht1]
      · omega
    · obtain ⟨l1, hl1, vl1, hd⟩ := ihl vl (by omega)
      obtain ⟨t1, ht1, vt1, hd1⟩ := balance_spec x l1 r h vl1 vr (by omega) (by omega)
        (by omega) (by omega)
      refine ⟨t1, ?_, vt1, ?_⟩
      · rw [if_neg c, hl1, Option.some_bind, ht1]
      · omega

theorem insertImpl_perm (lt : α → α → Bool) (e : α) (t t1 : Tree α)
    (h : insertImpl lt t e = some t1) : (inorder t1).Perm (e :: inorder t) := by
  induction t generalizing t1 with
  | nil =>
    rw [insertImpl_nil] at h
    rw [balance_inorder h]
    exact List.Perm.refl _
  | node x l r hh ihl ihr =>
    rw [insertImpl_node] at h
    by_cases c : lt x e = true
    · rw [if_pos c, Option.bind_eq_some] at h
      obtain ⟨r1, hr1, h⟩ := h
      rw [balance_inorder h]
      simp only [inorder]
      have := ihr r1 hr1
      have hm : (inorder l ++ [x] ++ e :: inorder r).Perm
          (e :: (inorder l ++ [x] ++ inorder r)) := List.perm_middle
      simp only [List.append_assoc, List.singleton_append] at hm
      exact ((List.Perm.cons x this).append_left (inorder l)).trans hm
    · rw [if_neg c, Option.bind_eq_some] at h
      obtain ⟨l1, hl1, h⟩ := h
      rw [balance_inorder h]
      simp only [inorder]
      have := ihl l1 hl1
      exact (this.append_right (x :: inorder r))

/-! ## Removal -/

theorem removeImpl_nil (lt : α → α → Bool) (e : α) (sz : Nat) :
    removeImpl lt .nil e sz = some (.nil, sz) := by
  simp only [removeImpl]

theorem removeImpl_left (lt : α → α → Bool) (key : α) (l r : Tree α) (h : Nat) (e : α)
    (sz : Nat) (c : lt e key = true) :
    removeImpl lt (.node key l r h) e sz =
      (removeImpl lt l e sz).bind fun p =>
        (balance (.node key p.1 r h)).map fun t1 => (t1, p.2) := by
  cases l <;> cases r <;> simp only [removeImpl, c, if_true]

theorem removeImpl_right (lt : α → α → Bool) (key : α) (l r : Tree α) (h : Nat) (e : α)
    (sz : Nat) (c1 : lt e key = false) (c2 : lt key e = true) :
    removeImpl lt (.node key l r h) e sz =
      (removeImpl lt r e sz).bind fun p =>
        (balance (.node key l p.1 h)).map fun t1 => (t1, p.2) := by
  cases l <;> cases r <;>
    simp only [removeImpl, c1, c2, Bool.false_eq_true, if_false, if_true]

theorem removeImpl_leaf (lt : α → α → Bool) (key : α) (h : Nat) (e : α)
    (sz : Nat) (c1 : lt e key = false) (c2 : lt key e = false) :
    removeImpl lt (.node key .nil .nil h) e sz = some (.nil, decSize sz) := by
  simp only [removeImpl, c1, c2, Bool.false_eq_true, if_false]

theorem removeImpl_two (lt : α → α → Bool) (key lx rx : α) (ll lr rl rr : Tree α)
    (h lh rh : Nat) (e : α) (sz : Nat) (c1 : lt e key = false) (c2 : lt key e = false) :
    removeImpl lt (.node key (.node lx ll lr lh) (.node rx rl rr rh) h) e sz =
      ((__minimum (.node rx rl rr rh)).bind element?).bind fun e1 =>
        (removeImpl lt (.node rx rl rr rh) e1 sz).bind fun p =>
          (balance (.node e1 (.node lx ll lr lh) p.1 h)).map fun t1 => (t1, decSize p.2) := by
  simp only [removeImpl, c1, c2, Bool.false_eq_true, if_false]

theorem removeImpl_onlyRight (lt : α → α → Bool) (key rx : α) (rl rr : Tree α)
    (h rh : Nat) (e : α) (sz : Nat) (c1 : lt e key = false) (c2 : lt key e = false) :
    removeImpl lt (.node key .nil (.node rx rl rr rh) h) e sz =
      (balance (.node rx rl rr rh)).map fun t1 => (t1, decSize sz) := by
  simp only [removeImpl, c1, c2, Bool.false_eq_true, if_false]

theorem removeImpl_onlyLeft (lt : α → α → Bool) (key lx : α) (ll lr : Tree α)
    (h lh : Nat) (e : α) (sz : Nat) (c1 : lt e key = false) (c2 : lt key e = false) :
    removeImpl lt (.node key (.node lx ll lr lh) .nil h) e sz =
      (balance (.node lx ll lr lh)).map fun t1 => (t1, decSize sz) := by
  simp only [removeImpl, c1, c2, Bool.false_eq_true, if_false]

theorem minimum_element (rx : α) (rl rr : Tree α) (rh : Nat) :
    ∃ e1, (__minimum (.node rx rl rr rh)).bind element? = some e1 ∧
      e1 ∈ inorder (.node rx rl rr rh) := by
  cases rl with
  | nil => exact ⟨rx, rfl, by simp [inorder]⟩
  | node lx ll lr lh => exact ⟨lx, rfl, by simp [inorder]⟩

theorem removeImpl_spec (lt : α → α → Bool) (t : Tree α) (v : Valid t)
    (b : height t < 2147483630) (e : α) (sz : Nat) :
    ∃ t1 sz1, removeImpl lt t e sz = some (t1, sz1) ∧ Valid t1 ∧
      (height t1 = height t ∨ height t1 + 1 = height t) := by
  induction t generalizing e sz with
  | nil => exact ⟨.nil, sz, removeImpl_nil lt e sz, valid_nil, Or.inl rfl⟩
  | node key l r h ihl ihr =>
    obtain ⟨vl, vr, hh, b1, b2⟩ := (valid_node_iff _ _ _ _).1 v
    simp only [height_node] at b ⊢
    by_cases c1 : lt e key = true
    · obtain ⟨l1, sz1, hl1, vl1, hd⟩ := ihl vl (by omega) e sz
      obtain ⟨t1, ht1, vt1, hd1⟩ := balance_spec key l1 r h vl1 vr (by omega) (by omega)
        (by omega) (by omega)
      refine ⟨t1, sz1, ?_, vt1, by omega⟩
      rw [removeImpl_left lt key l r h e sz c1, hl1, Option.some_bind, ht1]
      rfl
    · have c1f : lt e key = false := by simpa using c1
      by_cases c2 : lt key e = true
      · obtain ⟨r1, sz1, hr1, vr1, hd⟩ := ihr vr (by omega) e sz
        obtain ⟨t1, ht1, vt1, hd1⟩ := balance_spec key l r1 h vl vr1 (by omega) (by omega)
          (by omega) (by omega)
        refine ⟨t1, sz1, ?_, vt1, by omega⟩
        rw [removeImpl_right lt key l r h e sz c1f c2, hr1, Option.some_bind, ht1]
        rfl
      · have c2f : lt key e = false := by simpa using c2
        cases l with
        | nil =>
          cases r with
          | nil =>
            refine ⟨.nil, decSize sz, removeImpl_leaf lt key h e sz c1f c2f, valid_nil, ?_⟩
            simp only [height_nil] at hh ⊢
            omega
          | node rx rl rr rh =>
            refine ⟨.node rx rl rr rh, decSize sz, ?_, vr, ?_⟩
            · rw [removeImpl_onlyRight lt key rx rl rr h rh e sz c1f c2f,
                balance_valid vr (by omega)]
              rfl
            · simp only [height_nil] at hh b1 b2 ⊢
              omega
        | node lx ll lr lh =>
          cases r with
          | nil =>
            refine ⟨.node lx ll lr lh, decSize sz, ?_, vl, ?_⟩
            · rw [removeImpl_onlyLeft lt key lx ll lr h lh e sz c1f c2f,
                balance_valid vl (by omega)]
              rfl
            · simp only [height_nil] at hh b1 b2 ⊢
              omega
          | node rx rl rr rh =>
            obtain ⟨e1, he1, _⟩ := minimum_element rx rl rr rh
            obtain ⟨r1, sz1, hr1, vr1, hd⟩ := ihr vr (by omega) e1 sz
            obtain ⟨t1, ht1, vt1, hd1⟩ := balance_spec e1 (.node lx ll lr lh) r1 h vl vr1
              (by omega) (by omega) (by omega) (by omega)
            refine ⟨t1, decSize sz1, ?_, vt1, by omega⟩
            rw [removeImpl_two lt key lx rx ll lr rl rr h lh rh e sz c1f c2f, he1,
              Option.some_bind, hr1, Option.some_bind, ht1]
            rfl

/-! ## Size of balanced trees -/

theorem nodes_eq_length (t : Tree α) : nodes t = (inorder t).length := by
  induction t with
  | nil => rfl
  | node x l r h ihl ihr => simp only [nodes, inorder, List.length_append, List.length_cons, ihl, ihr]; omega

theorem removeImpl_length (lt : α → α → Bool) (t : Tree α) (e : α) (sz : Nat) (t1 : Tree α)
    (sz1 : Nat) (h : removeImpl lt t e sz = some (t1, sz1)) :
    (inorder t1).length ≤ (inorder t).length := by
  induction t generalizing e sz t1 sz1 with
  | nil =>
    rw [removeImpl_nil] at h
    simp only [Option.some.injEq, Prod.mk.injEq] at h
    rw [← h.1]
  | node key l r hh ihl ihr =>
    by_cases c1 : lt e key = true
    · rw [removeImpl_left lt key l r hh e sz c1] at h
      obtain ⟨p, hp, h⟩ := Option.bind_eq_some.1 h
      obtain ⟨t2, ht2, h⟩ := Option.map_eq_some'.1 h
      obtain ⟨rfl, _⟩ := Prod.mk.inj h
      have := ihl e sz p.1 p.2 hp
      rw [balance_inorder ht2]
      simp only [inorder, List.length_append, List.length_cons]
      omega
    · have c1f : lt e key = false := by simpa using c1
      by_cases c2 : lt key e = true
      · rw [removeImpl_right lt key l r hh e sz c1f c2] at h
        obtain ⟨p, hp, h⟩ := Option.bind_eq_some.1 h
        obtain ⟨t2, ht2, h⟩ := Option.map_eq_some'.1 h
        obtain ⟨rfl, _⟩ := Prod.mk.inj h
        have := ihr e sz p.1 p.2 hp
        rw [balance_inorder ht2]
        simp only [inorder, List.length_append, List.length_cons]
        omega
      · have c2f : lt key e = false := by simpa using c2
        cases l with
        | nil =>
          cases r with
          | nil =>
            rw [removeImpl_leaf lt key hh e sz c1f c2f] at h
            simp only [Option.some.injEq, Prod.mk.injEq] at h
            rw [← h.1]
            simp [inorder]
          | node rx rl rr rh =>
            rw [removeImpl_onlyRight lt key rx rl rr hh rh e sz c1f c2f] at h
            obtain ⟨t2, ht2, h⟩ := Option.map_eq_some'.1 h
            obtain ⟨rfl, _⟩ := Prod.mk.inj h
            rw [balance_inorder ht2]
            simp [inorder]
        | node lx ll lr lh =>
          cases r with
          | nil =>
            rw [removeImpl_onlyLeft lt key lx ll lr hh lh e sz c1f c2f] at h
            obtain ⟨t2, ht2, h⟩ := Option.map_eq_some'.1 h
            obtain ⟨rfl, _⟩ := Prod.mk.inj h
            rw [balance_inorder ht2]
            simp [inorder]
          | node rx rl rr rh =>
            rw [removeImpl_two lt key lx rx ll lr rl rr hh lh rh e sz c1f c2f] at h
            obtain ⟨e1, _, h⟩ := Option.bind_eq_some.1 h
            obtain ⟨p, hp, h⟩ := Option.bind_eq_some.1 h
            obtain ⟨t2, ht2, h⟩ := Option.map_eq_some'.1 h
            obtain ⟨rfl, _⟩ := Prod.mk.inj h
            have := ihr e1 sz p.1 p.2 hp
            rw [balance_inorder ht2]
            simp only [inorder, List.length_append, List.length_cons] at this ⊢
            omega

theorem fib_le_nodes (t : Tree α) (b : Balanced t) :
    Nat.fib (realHeight t + 2) ≤ nodes t + 1 := by
  induction t with
  | nil => simp [realHeight, nodes]
  | node x l r h ihl ihr =>
    obtain ⟨bl, br, b1, b2⟩ := b
    have hl := ihl bl
    have hr := ihr br
    simp only [realHeight, nodes]
    rcases Nat.le_total (realHeight r) (realHeight l) with c | c
    · rw [max_eq_left c, Nat.fib_add_two]
      have : Nat.fib (realHeight l + 1) ≤ Nat.fib (realHeight r + 2) := Nat.fib_mono (by omega)
      have e : realHeight l + 1 + 1 = realHeight l + 2 := rfl
      rw [e]
      omega
    · rw [max_eq_right c, Nat.fib_add_two]
      have : Nat.fib (realHeight r + 1) ≤ Nat.fib (realHeight l + 2) := Nat.fib_mono (by omega)
      have e : realHeight r + 1 + 1 = realHeight r + 2 := rfl
      rw [e]
      omega

theorem fib_94 : Nat.fib 94 = 19740274219868223167 := by norm_num

theorem height_small (t : Tree α) (v : Valid t) (n : nodes t < SIZE_MOD) : height t < 92 := by
  rw [height_eq_realHeight v.1]
  by_contra c
  have h1 := fib_le_nodes t v.2
  have h2 : Nat.fib 94 ≤ Nat.fib (realHeight t + 2) := Nat.fib_mono (by omega)
  rw [fib_94] at h2
  unfold SIZE_MOD at n
  omega

/-! ## Sequences of calls -/

theorem insert_valid (lt : α → α → Bool) (t : AVL α) (e : α) (v : Valid t.m_root)
    (n : nodes t.m_root < SIZE_MOD) :
    ∃ t1, t.insert lt e = some t1 ∧ Valid t1.m_root ∧
      (inorder t1.m_root).Perm (e :: inorder t.m_root) ∧ t1.m_size = incSize t.m_size := by
  have hs := height_small t.m_root v n
  obtain ⟨r1, hr1, vr1, _⟩ := insertImpl_spec lt e t.m_root v (by omega)
  refine ⟨⟨r1, incSize t.m_size⟩, ?_, vr1, insertImpl_perm lt e t.m_root r1 hr1, rfl⟩
  unfold AVL.insert
  rw [hr1]
  rfl

theorem remove_valid (lt : α → α → Bool) (t : AVL α) (e : α) (v : Valid t.m_root)
    (n : nodes t.m_root < SIZE_MOD) :
    ∃ t1, t.remove lt e = some t1 ∧ Valid t1.m_root ∧
      nodes t1.m_root ≤ nodes t.m_root := by
  have hs := height_small t.m_root v n
  obtain ⟨r1, sz1, hr1, vr1, _⟩ := removeImpl_spec lt t.m_root v (by omega) e t.m_size
  refine ⟨⟨r1, sz1⟩, ?_, vr1, ?_⟩
  · unfold AVL.remove
    rw [hr1]
    rfl
  · rw [nodes_eq_length, nodes_eq_length]
    exact removeImpl_length lt t.m_root e t.m_size r1 sz1 hr1

theorem step_valid (lt : α → α → Bool) (t : AVL α) (op : Op α) (v : Valid t.m_root)
    (n : nodes t.m_root < SIZE_MOD) :
    ∃ t1, t.step lt op = some t1 ∧ Valid t1.m_root ∧
      nodes t1.m_root ≤ nodes t.m_root + 1 := by
  cases op with
  | insert e =>
    obtain ⟨t1, h1, v1, p1, _⟩ := insert_valid lt t e v n
    refine ⟨t1, h1, v1, ?_⟩
    rw [nodes_eq_length, nodes_eq_length, p1.length_eq]
    simp
  | remove e =>
    obtain ⟨t1, h1, v1, p1⟩ := remove_valid lt t e v n
    exact ⟨t1, h1, v1, by omega⟩

theorem runFrom_valid (lt : α → α → Bool) (ops : List (Op α)) (t : AVL α)
    (v : Valid t.m_root) (n : nodes t.m_root + ops.length < SIZE_MOD) :
    ∃ t1, AVL.runFrom lt t ops = some t1 ∧ Valid t1.m_root ∧
      nodes t1.m_root ≤ nodes t.m_root + ops.length := by
  induction ops generalizing t with
  | nil => exact ⟨t, rfl, v, by simp⟩
  | cons op ops ih =>
    simp only [List.length_cons] at n ⊢
    obtain ⟨t1, h1, v1, n1⟩ := step_valid lt t op v (by omega)
    obtain ⟨t2, h2, v2, n2⟩ := ih t1 v1 (by omega)
    refine ⟨t2, ?_, v2, by omega⟩
    unfold AVL.runFrom
    rw [h1, Option.some_bind, h2]

theorem run_valid (lt : α → α → Bool) (ops : List (Op α)) (n : ops.length < SIZE_MOD) :
    ∃ t, AVL.run lt ops = some t ∧ Valid t.m_root ∧ nodes t.m_root ≤ ops.length := by
  obtain ⟨t, h, v, m⟩ := runFrom_valid lt ops AVL.empty valid_nil
    (by simpa [AVL.empty, nodes] using n)
  exact ⟨t, h, v, by simpa [AVL.empty, nodes] using m⟩

/-! ## Ordering under insertion -/

theorem StrictWeakOrder.asymm {lt : α → α → Bool} (swo : StrictWeakOrder lt) {a b : α}
    (h : lt a b = true) : lt b a = false := by
  cases hb : lt b a with
  | false => rfl
  | true =>
    have := swo.trans a b a h hb
    rw [swo.irrefl a] at this
    exact absurd this (by simp)

theorem StrictWeakOrder.neg_trans {lt : α → α → Bool} (swo : StrictWeakOrder lt) {a b c : α}
    (h1 : lt a b = false) (h2 : lt b c = false) : lt a c = false := by
  cases hac : lt a c with
  | false => rfl
  | true =>
    have hba : lt b a = false := by
      cases hba : lt b a with
      | false => rfl
      | true =>
        have := swo.trans b a c hba hac
        rw [h2] at this
        exact absurd this (by simp)
    have hcb : lt c b = false := by
      cases hcb : lt c b with
      | false => rfl
      | true =>
        have := swo.trans a c b hac hcb
        rw [h1] at this
        exact absurd this (by simp)
    have := (swo.incomp_trans a b c h1 hba h2 hcb).1
    rw [hac] at this
    exact absurd this (by simp)

theorem insertImpl_sorted (lt : α → α → Bool) (swo : StrictWeakOrder lt) (e : α)
    (t t1 : Tree α) (hs : NonDecreasing lt (inorder t))
    (h : insertImpl lt t e = some t1) : NonDecreasing lt (inorder t1) := by
  induction t generalizing t1 with
  | nil =>
    rw [insertImpl_nil] at h
    rw [balance_inorder h]
    simp [NonDecreasing, inorder]
  | node x l r hh ihl ihr =>
    rw [insertImpl_node] at h
    simp only [NonDecreasing, inorder, List.pairwise_append, List.pairwise_cons,
      List.mem_cons] at hs
    obtain ⟨sl, ⟨xr, sr⟩, cross⟩ := hs
    by_cases c : lt x e = true
    · rw [if_pos c] at h
      obtain ⟨r1, hr1, h⟩ := Option.bind_eq_some.1 h
      rw [balance_inorder h]
      have p1 := insertImpl_perm lt e r r1 hr1
      have s1 := ihr r1 sr hr1
      simp only [NonDecreasing, inorder, List.pairwise_append, List.pairwise_cons,
        List.mem_cons]
      refine ⟨sl, ⟨?_, s1⟩, ?_⟩
      · intro b hb
        rcases List.mem_cons.1 (p1.mem_iff.1 hb) with rfl | hb
        · exact swo.asymm c
        · exact xr b hb
      · intro a ha b hb
        rcases hb with rfl | hb
        · exact cross a ha b (Or.inl rfl)
        · rcases List.mem_cons.1 (p1.mem_iff.1 hb) with rfl | hb
          · cases hba : lt b a with
            | false => rfl
            | true =>
              have := swo.trans x b a c hba
              rw [cross a ha x (Or.inl rfl)] at this
              exact absurd this (by simp)
          · exact cross a ha b (Or.inr hb)
    · have cf : lt x e = false := by simpa using c
      rw [if_neg c] at h
      obtain ⟨l1, hl1, h⟩ := Option.bind_eq_some.1 h
      rw [balance_inorder h]
      have p1 := insertImpl_perm lt e l l1 hl1
      have s1 := ihl l1 sl hl1
      simp only [NonDecreasing, inorder, List.pairwise_append, List.pairwise_cons,
        List.mem_cons]
      refine ⟨s1, ⟨xr, sr⟩, ?_⟩
      intro a ha b hb
      rcases List.mem_cons.1 (p1.mem_iff.1 ha) with rfl | ha
      · rcases hb with rfl | hb
        · exact cf
        · exact swo.neg_trans (xr b hb) cf
      · exact cross a ha b hb

theorem incSize_eq (n : Nat) (h : n + 1 < SIZE_MOD) : incSize n = n + 1 := by
  unfold incSize
  exact Nat.mod_eq_of_lt h

theorem map_insert_runFrom (lt : α → α → Bool) (swo : StrictWeakOrder lt) (xs : List α)
    (t : AVL α) (v : Valid t.m_root) (hs : NonDecreasing lt (inorder t.m_root))
    (n : nodes t.m_root + xs.length < SIZE_MOD) (m : t.m_size + xs.length < SIZE_MOD) :
    ∃ t1, AVL.runFrom lt t (xs.map Op.insert) = some t1 ∧ Valid t1.m_root ∧
      (inorder t1.m_root).Perm (xs ++ inorder t.m_root) ∧
      NonDecreasing lt (inorder t1.m_root) ∧ t1.m_size = t.m_size + xs.length := by
  induction xs generalizing t with
  | nil => exact ⟨t, rfl, v, List.Perm.refl _, hs, rfl⟩
  | cons x xs ih =>
    simp only [List.length_cons] at n m
    obtain ⟨t1, h1, v1, p1, z1⟩ := insert_valid lt t x v (by omega)
    have hr : insertImpl lt t.m_root x = some t1.m_root := by
      unfold AVL.insert at h1
      obtain ⟨r, hr, h1⟩ := Option.map_eq_some'.1 h1
      rw [← h1]
      exact hr
    have s1 := insertImpl_sorted lt swo x t.m_root t1.m_root hs hr
    have n1 : nodes t1.m_root = nodes t.m_root + 1 := by
      rw [nodes_eq_length, nodes_eq_length, p1.length_eq]
      simp
    rw [incSize_eq _ (by omega)] at z1
    obtain ⟨t2, h2, v2, p2, s2, z2⟩ := ih t1 v1 s1 (by omega) (by omega)
    refine ⟨t2, ?_, v2, ?_, s2, ?_⟩
    · simp only [List.map_cons]
      unfold AVL.runFrom
      have : t.step lt (Op.insert x) = some t1 := h1
      rw [this, Option.some_bind, h2]
    · refine p2.trans ?_
      refine (List.Perm.append_left xs p1).trans ?_
      simp only [List.cons_append]
      exact List.perm_middle
    · rw [z2, z1, List.length_cons]
      omega

/-! ## Search and removal of a stored element -/

theorem searchImpl_node (lt : α → α → Bool) (x : α) (l r : Tree α) (h : Nat) (e : α) :
    searchImpl lt (.node x l r h) e =
      if lt x e then searchImpl lt r e
      else if lt e x then searchImpl lt l e else some x := by
  simp only [searchImpl]

theorem removeImpl_notFound (lt : α → α → Bool) (swo : StrictWeakOrder lt) (t : Tree α)
    (v : Valid t) (b : height t < 2147483640) (e : α) (sz : Nat)
    (hf : searchImpl lt t e = none) : removeImpl lt t e sz = some (t, sz) := by
  induction t with
  | nil => exact removeImpl_nil lt e sz
  | node key l r h ihl ihr =>
    obtain ⟨vl, vr, hh, b1, b2⟩ := (valid_node_iff _ _ _ _).1 v
    have bt := balance_valid v b
    simp only [height_node] at b
    rw [searchImpl_node] at hf
    by_cases c2 : lt key e = true
    · rw [if_pos c2] at hf
      rw [removeImpl_right lt key l r h e sz (swo.asymm c2) c2, ihr vr (by omega) hf,
        Option.some_bind, bt]
      rfl
    · rw [if_neg c2] at hf
      by_cases c1 : lt e key = true
      · rw [if_pos c1] at hf
        rw [removeImpl_left lt key l r h e sz c1, ihl vl (by omega) hf, Option.some_bind, bt]
        rfl
      · rw [if_neg c1] at hf
        exact absurd hf (by simp)

theorem removeImpl_perm (lt : α → α → Bool) (swo : StrictWeakOrder lt)
    (tot : ∀ a b, lt a b = false → lt b a = false → a = b) (t : Tree α) (e : α) (sz : Nat)
    (t1 : Tree α) (sz1 : Nat) (hb : IsBST lt t) (he : e ∈ inorder t)
    (h : removeImpl lt t e sz = some (t1, sz1)) : (inorder t).Perm (e :: inorder t1) := by
  induction t generalizing e sz t1 sz1 with
  | nil => simp [inorder] at he
  | node key l r hh ihl ihr =>
    obtain ⟨bl, br, hl, hr⟩ := hb
    simp only [inorder, List.mem_append, List.mem_cons] at he
    by_cases c1 : lt e key = true
    · have hel : e ∈ inorder l := by
        rcases he with he | rfl | he
        · exact he
        · rw [swo.irrefl e] at c1
          exact absurd c1 (by simp)
        · rw [hr e he] at c1
          exact absurd c1 (by simp)
      rw [removeImpl_left lt key l r hh e sz c1] at h
      obtain ⟨p, hp, h⟩ := Option.bind_eq_some.1 h
      obtain ⟨t2, ht2, h⟩ := Option.map_eq_some'.1 h
      obtain ⟨rfl, _⟩ := Prod.mk.inj h
      rw [balance_inorder ht2]
      have := ihl e sz p.1 p.2 bl hel hp
      simp only [inorder]
      exact (this.append_right (key :: inorder r))
    · have c1f : lt e key = false := by simpa using c1
      by_cases c2 : lt key e = true
      · have her : e ∈ inorder r := by
          rcases he with he | rfl | he
          · rw [hl e he] at c2
            exact absurd c2 (by simp)
          · rw [swo.irrefl e] at c2
            exact absurd c2 (by simp)
          · exact he
        rw [removeImpl_right lt key l r hh e sz c1f c2] at h
        obtain ⟨p, hp, h⟩ := Option.bind_eq_some.1 h
        obtain ⟨t2, ht2, h⟩ := Option.map_eq_some'.1 h
        obtain ⟨rfl, _⟩ := Prod.mk.inj h
        rw [balance_inorder ht2]
        have := ihr e sz p.1 p.2 br her hp
        simp only [inorder]
        have hm : (inorder l ++ [key] ++ e :: inorder p.1).Perm
            (e :: (inorder l ++ [key] ++ inorder p.1)) := List.perm_middle
        simp only [List.append_assoc, List.singleton_append] at hm
        exact ((List.Perm.cons key this).append_left (inorder l)).trans hm
      · have c2f : lt key e = false := by simpa using c2
        have hek : e = key := tot e key c1f c2f
        subst hek
        cases l with
        | nil =>
          cases r with
          | nil =>
            rw [removeImpl_leaf lt e hh e sz c1f c2f] at h
            obtain ⟨rfl, _⟩ := Prod.mk.inj (Option.some.inj h)
            simp [inorder]
          | node rx rl rr rh =>
            rw [removeImpl_onlyRight lt e rx rl rr hh rh e sz c1f c2f] at h
            obtain ⟨t2, ht2, h⟩ := Option.map_eq_some'.1 h
            obtain ⟨rfl, _⟩ := Prod.mk.inj h
            rw [balance_inorder ht2]
            simp [inorder]
        | node lx ll lr lh =>
          cases r with
          | nil =>
            rw [removeImpl_onlyLeft lt e lx ll lr hh lh e sz c1f c2f] at h
            obtain ⟨t2, ht2, h⟩ := Option.map_eq_some'.1 h
            obtain ⟨rfl, _⟩ := Prod.mk.inj h
            rw [balance_inorder ht2]
            have hm : (inorder (Tree.node lx ll lr lh) ++ e :: []).Perm
                (e :: (inorder (Tree.node lx ll lr lh) ++ [])) := List.perm_middle
            rw [List.append_nil] at hm
            exact hm
          | node rx rl rr rh =>
            rw [removeImpl_two lt e lx rx ll lr rl rr hh lh rh e sz c1f c2f] at h
            obtain ⟨e1, he1, h⟩ := Option.bind_eq_some.1 h
            obtain ⟨p, hp, h⟩ := Option.bind_eq_some.1 h
            obtain ⟨t2, ht2, h⟩ := Option.map_eq_some'.1 h
            obtain ⟨rfl, _⟩ := Prod.mk.inj h
            obtain ⟨e2, he2, hmem⟩ := minimum_element rx rl rr rh
            rw [he1] at he2
            obtain rfl := Option.some.inj he2
            have := ihr e1 sz p.1 p.2 br hmem hp
            rw [balance_inorder ht2]
            have q : (inorder (Tree.node e (Tree.node lx ll lr lh) (Tree.node rx rl rr rh) hh)).Perm
                (inorder (Tree.node lx ll lr lh) ++ e :: e1 :: inorder p.1) := by
              simp only [inorder] at this ⊢
              exact (List.Perm.cons e this).append_left _
            refine q.trans ?_
            have hm : (inorder (Tree.node lx ll lr lh) ++ e :: e1 :: inorder p.1).Perm
                (e :: (inorder (Tree.node lx ll lr lh) ++ e1 :: inorder p.1)) :=
              List.perm_middle
            exact hm

/-! ## Cached heights without the balance invariant -/

theorem cachedOk_node_iff (x : α) (l r : Tree α) (h : Nat) :
    CachedOk (.node x l r h) ↔ CachedOk l ∧ CachedOk r ∧ h = max (height l) (height r) + 1 :=
  Iff.rfl

theorem balance_cached (x : α) (l r : Tree α) (h : Nat) (cl : CachedOk l) (cr : CachedOk r)
    (bl : height l < 2147483640) (br : height r < 2147483640) :
    ∃ t1, balance (.node x l r h) = some t1 ∧ CachedOk t1 ∧
      height t1 ≤ max (height l) (height r) + 1 := by
  by_cases c : height l ≤ height r + 1 ∧ height r ≤ height l + 1
  · exact ⟨_, balance_keep x l r h bl br c.1 c.2, ⟨cl, cr, rfl⟩, le_refl _⟩
  · by_cases c1 : height r + 1 < height l
    · cases l with
      | nil => simp only [height_nil] at c1; omega
      | node lx ll lr lh =>
        obtain ⟨cll, clr, hlh⟩ := cl
        simp only [height_node] at *
        by_cases c2 : height lr ≤ height ll
        · refine ⟨_, balance_left_single x lx ll lr r h lh (by omega) (by omega) bl br c1 c2,
            ⟨cll, ⟨clr, cr, rfl⟩, rfl⟩, ?_⟩
          simp only [height_node]; omega
        · cases lr with
          | nil => simp only [height_nil] at c2; omega
          | node lrx lrl lrr lrh =>
            obtain ⟨clrl, clrr, hlrh⟩ := clr
            simp only [height_node] at *
            refine ⟨_, balance_left_double x lx lrx ll lrl lrr r h lh lrh (by omega) (by omega)
              (by omega) bl br c1 (by omega), ⟨⟨cll, clrl, ?_⟩, ⟨clrr, cr, rfl⟩, rfl⟩, ?_⟩
            · rw [max_comm]
            · simp only [height_node]; omega
    · have c3 : height l + 1 < height r := by omega
      cases r with
      | nil => simp only [height_nil] at c3; omega
      | node rx rl rr rh =>
        obtain ⟨crl, crr, hrh⟩ := cr
        simp only [height_node] at *
        by_cases c2 : height rl ≤ height rr
        · refine ⟨_, balance_right_single x rx l rl rr h rh (by omega) (by omega) bl br c3 c2,
            ⟨⟨cl, crl, ?_⟩, crr, rfl⟩, ?_⟩
          · rw [max_comm]
          · simp only [height_node]; omega
        · cases rl with
          | nil => simp only [height_nil] at c2; omega
          | node rlx rll rlr rlh =>
            obtain ⟨crll, crlr, hrlh⟩ := crl
            simp only [height_node] at *
            refine ⟨_, balance_right_double x rx rlx l rll rlr rr h rh rlh (by omega) (by omega)
              (by omega) bl br c3 (by omega), ⟨⟨cl, crll, ?_⟩, ⟨crlr, crr, rfl⟩, rfl⟩, ?_⟩
            · rw [max_comm]
            · simp only [height_node]; omega

theorem insertImpl_cached (lt : α → α → Bool) (e : α) (t : Tree α) (c : CachedOk t)
    (b : height t < 2147483640) :
    ∃ t1, insertImpl lt t e = some t1 ∧ CachedOk t1 ∧ height t1 ≤ height t + 1 := by
  induction t with
  | nil =>
    refine ⟨.node e .nil .nil 1, ?_, ⟨trivial, trivial, rfl⟩, le_refl _⟩
    rw [insertImpl_nil]
    exact balance_keep e .nil .nil 0 (by simp [height_nil]) (by simp [height_nil])
      (by simp) (by simp)
  | node x l r h ihl ihr =>
    obtain ⟨cl, cr, hh⟩ := c
    simp only [height_node] at b ⊢
    rw [insertImpl_node]
    by_cases c1 : lt x e = true
    · obtain ⟨r1, hr1, cr1, hd⟩ := ihr cr (by omega)
      obtain ⟨t1, ht1, ct1, hd1⟩ := balance_cached x l r1 h cl cr1 (by omega) (by omega)
      refine ⟨t1, ?_, ct1, by omega⟩
      rw [if_pos c1, hr1, Option.some_bind, ht1]
    · obtain ⟨l1, hl1, cl1, hd⟩ := ihl cl (by omega)
      obtain ⟨t1, ht1, ct1, hd1⟩ := balance_cached x l1 r h cl1 cr (by omega) (by omega)
      refine ⟨t1, ?_, ct1, by omega⟩
      rw [if_neg c1, hl1, Option.some_bind, ht1]

theorem removeImpl_cached (lt : α → α → Bool) (t : Tree α) (c : CachedOk t)
    (b : height t < 2147483640) (e : α) (sz : Nat) :
    ∃ t1 sz1, removeImpl lt t e sz = some (t1, sz1) ∧ CachedOk t1 ∧ height t1 ≤ height t := by
  induction t generalizing e sz with
  | nil => exact ⟨.nil, sz, removeImpl_nil lt e sz, trivial, le_refl _⟩
  | node key l r h ihl ihr =>
    obtain ⟨cl, cr, hh⟩ := c
    simp only [height_node] at b ⊢
    by_cases c1 : lt e key = true
    · obtain ⟨l1, sz1, hl1, cl1, hd⟩ := ihl cl (by omega) e sz
      obtain ⟨t1, ht1, ct1, hd1⟩ := balance_cached key l1 r h cl1 cr (by omega) (by omega)
      refine ⟨t1, sz1, ?_, ct1, by omega⟩
      rw [removeImpl_left lt key l r h e sz c1, hl1, Option.some_bind, ht1]
      rfl
    · have c1f : lt e key = false := by simpa using c1
      by_cases c2 : lt key e = true
      · obtain ⟨r1, sz1, hr1, cr1, hd⟩ := ihr cr (by omega) e sz
        obtain ⟨t1, ht1, ct1, hd1⟩ := balance_cached key l r1 h cl cr1 (by omega) (by omega)
        refine ⟨t1, sz1, ?_, ct1, by omega⟩
        rw [removeImpl_right lt key l r h e sz c1f c2, hr1, Option.some_bind, ht1]
        rfl
      · have c2f : lt key e = false := by simpa using c2
        cases l with
        | nil =>
          cases r with
          | nil =>
            exact ⟨.nil, decSize sz, removeImpl_leaf lt key h e sz c1f c2f, trivial,
              Nat.zero_le _⟩
          | node rx rl rr rh =>
            obtain ⟨crl, crr, hrh⟩ := cr
            simp only [height_node, height_nil] at hh b
            obtain ⟨t1, ht1, ct1, hd1⟩ := balance_cached rx rl rr rh crl crr (by omega)
              (by omega)
            refine ⟨t1, decSize sz, ?_, ct1, by omega⟩
            rw [removeImpl_onlyRight lt key rx rl rr h rh e sz c1f c2f, ht1]
            rfl
        | node lx ll lr lh =>
          cases r with
          | nil =>
            obtain ⟨cll, clr, hlh⟩ := cl
            simp only [height_node, height_nil] at hh b
            obtain ⟨t1, ht1, ct1, hd1⟩ := balance_cached lx ll lr lh cll clr (by omega)
              (by omega)
            refine ⟨t1, decSize sz, ?_, ct1, by omega⟩
            rw [removeImpl_onlyLeft lt key lx ll lr h lh e sz c1f c2f, ht1]
            rfl
          | node rx rl rr rh =>
            obtain ⟨e1, he1, _⟩ := minimum_element rx rl rr rh
            obtain ⟨r1, sz1, hr1, cr1, hd⟩ := ihr cr (by omega) e1 sz
            obtain ⟨t1, ht1, ct1, hd1⟩ := balance_cached e1 (.node lx ll lr lh) r1 h cl cr1
              (by omega) (by omega)
            refine ⟨t1, decSize sz1, ?_, ct1, by omega⟩
            rw [removeImpl_two lt key lx rx ll lr rl rr h lh rh e sz c1f c2f, he1,
              Option.some_bind, hr1, Option.some_bind, ht1]
            rfl

/-! ## Search, totality of rebalancing, height bounds, copies -/

theorem searchImpl_sound (lt : α → α → Bool) (t : Tree α) (e x : α)
    (h : searchImpl lt t e = some x) : x ∈ inorder t ∧ Equivalent lt x e := by
  induction t with
  | nil => simp [searchImpl] at h
  | node k l r hh ihl ihr =>
    rw [searchImpl_node] at h
    by_cases c1 : lt k e = true
    · rw [if_pos c1] at h
      have := ihr h
      exact ⟨by simp [inorder, this.1], this.2⟩
    · rw [if_neg c1] at h
      by_cases c2 : lt e k = true
      · rw [if_pos c2] at h
        have := ihl h
        exact ⟨by simp [inorder, this.1], this.2⟩
      · rw [if_neg c2] at h
        obtain rfl := Option.some.inj h
        exact ⟨by simp [inorder], by simpa using c1, by simpa using c2⟩

theorem searchImpl_complete (lt : α → α → Bool) (swo : StrictWeakOrder lt) (t : Tree α)
    (e : α) (hb : IsBST lt t) (hy : ∃ y ∈ inorder t, Equivalent lt y e) :
    ∃ x, searchImpl lt t e = some x := by
  induction t with
  | nil =>
    obtain ⟨y, hy, _⟩ := hy
    simp [inorder] at hy
  | node k l r hh ihl ihr =>
    obtain ⟨bl, br, hl, hr⟩ := hb
    obtain ⟨y, hy, e1, e2⟩ := hy
    simp only [inorder, List.mem_append, List.mem_cons] at hy
    rw [searchImpl_node]
    by_cases c1 : lt k e = true
    · rw [if_pos c1]
      rcases hy with hy | rfl | hy
      · have := swo.neg_trans (hl y hy) e1
        rw [c1] at this
        exact absurd this (by simp)
      · rw [c1] at e1
        exact absurd e1 (by simp)
      · exact ihr br ⟨y, hy, e1, e2⟩
    · rw [if_neg c1]
      by_cases c2 : lt e k = true
      · rw [if_pos c2]
        rcases hy with hy | rfl | hy
        · exact ihl bl ⟨y, hy, e1, e2⟩
        · rw [c2] at e2
          exact absurd e2 (by simp)
        · have := swo.neg_trans e2 (hr y hy)
          rw [c2] at this
          exact absurd this (by simp)
      · rw [if_neg c2]
        exact ⟨k, rfl⟩

theorem height_lt_of_cachedBelow {m : Nat} (hm : 0 < m) {t : Tree α} (h : CachedBelow m t) :
    height t < m := by
  cases t with
  | nil => exact hm
  | node x l r hh => exact h.1

theorem balance_defined (x : α) (l r : Tree α) (h : Nat) (cl : CachedBelow 2147483640 l)
    (cr : CachedBelow 2147483640 r) : ∃ t1, balance (.node x l r h) = some t1 := by
  have bl := height_lt_of_cachedBelow (by omega) cl
  have br := height_lt_of_cachedBelow (by omega) cr
  by_cases c : height l ≤ height r + 1 ∧ height r ≤ height l + 1
  · exact ⟨_, balance_keep x l r h bl br c.1 c.2⟩
  · by_cases c1 : height r + 1 < height l
    · cases l with
      | nil => simp only [height_nil] at c1; omega
      | node lx ll lr lh =>
        obtain ⟨_, cll, clr⟩ := cl
        have bll := height_lt_of_cachedBelow (by omega) cll
        have blr := height_lt_of_cachedBelow (by omega) clr
        simp only [height_node] at *
        by_cases c2 : height lr ≤ height ll
        · exact ⟨_, balance_left_single x lx ll lr r h lh bll blr bl br c1 c2⟩
        · cases lr with
          | nil => simp only [height_nil] at c2; omega
          | node lrx lrl lrr lrh =>
            obtain ⟨_, clrl, clrr⟩ := clr
            have blrl := height_lt_of_cachedBelow (by omega) clrl
            have blrr := height_lt_of_cachedBelow (by omega) clrr
            simp only [height_node] at *
            exact ⟨_, balance_left_double x lx lrx ll lrl lrr r h lh lrh bll blrl blrr bl br c1
              (by omega)⟩
    · have c3 : height l + 1 < height r := by omega
      cases r with
      | nil => simp only [height_nil] at c3; omega
      | node rx rl rr rh =>
        obtain ⟨_, crl, crr⟩ := cr
        have brl := height_lt_of_cachedBelow (by omega) crl
        have brr := height_lt_of_cachedBelow (by omega) crr
        simp only [height_node] at *
        by_cases c2 : height rl ≤ height rr
        · exact ⟨_, balance_right_single x rx l rl rr h rh brl brr bl br c3 c2⟩
        · cases rl with
          | nil => simp only [height_nil] at c2; omega
          | node rlx rll rlr rlh =>
            obtain ⟨_, crll, crlr⟩ := crl
            have brll := height_lt_of_cachedBelow (by omega) crll
            have brlr := height_lt_of_cachedBelow (by omega) crlr
            simp only [height_node] at *
            exact ⟨_, balance_right_double x rx rlx l rll rlr rr h rh rlh brll brlr brr bl br c3
              (by omega)⟩

theorem two_pow_le_fib_even (k : Nat) : 2 ^ k ≤ Nat.fib (2 * k + 2) := by
  induction k with
  | zero => simp
  | succ k ih =>
    have e : 2 * (k + 1) + 2 = (2 * k + 2) + 2 := by ring
    rw [e, Nat.fib_add_two, pow_succ]
    have : Nat.fib (2 * k + 2) ≤ Nat.fib (2 * k + 2 + 1) := Nat.fib_mono (by omega)
    omega

theorem two_pow_le_fib (h : Nat) : 2 ^ (h / 2) ≤ Nat.fib (h + 2) :=
  le_trans (two_pow_le_fib_even (h / 2)) (Nat.fib_mono (by omega))

theorem clone_inorder (t : Tree α) : inorder (clone t) = inorder t := by
  induction t with
  | nil => rfl
  | node x l r h ihl ihr => simp only [clone, inorder, ihl, ihr]

theorem clone_shape (t : Tree α) : shape (clone t) = shape t := by
  induction t with
  | nil => rfl
  | node x l r h ihl ihr => simp only [clone, shape, ihl, ihr]

theorem balanceRotate_left_single (x lx : α) (ll lr r : Tree α) (h lh : Nat)
    (bl : lh < 2147483640) (br : height r < 2147483640)
    (h1 : height r + 1 < lh) (h2 : height lr ≤ height ll) :
    balanceRotate (.node x (.node lx ll lr lh) r h) =
      rotateLeftChild (.node x (.node lx ll lr lh) r h) := by
  simp only [balanceRotate, height_node]
  rw [if_pos ((castDiff_gt _ _ (by omega) (by omega)).2 h1), if_pos (by omega)]

theorem balanceRotate_left_double (x lx : α) (ll lr r : Tree α) (h lh : Nat)
    (bl : lh < 2147483640) (br : height r < 2147483640)
    (h1 : height r + 1 < lh) (h2 : height ll < height lr) :
    balanceRotate (.node x (.node lx ll lr lh) r h) =
      doubleRotateRightChild (.node x (.node lx ll lr lh) r h) := by
  simp only [balanceRotate, height_node]
  rw [if_pos ((castDiff_gt _ _ (by omega) (by omega)).2 h1), if_neg (by omega)]

theorem balanceRotate_right_single (x rx : α) (l rl rr : Tree α) (h rh : Nat)
    (bl : height l < 2147483640) (br : rh < 2147483640)
    (h1 : height l + 1 < rh) (h2 : height rl ≤ height rr) :
    balanceRotate (.node x l (.node rx rl rr rh) h) =
      rotateRightChild (.node x l (.node rx rl rr rh) h) := by
  simp only [balanceRotate, height_node]
  rw [if_neg (by rw [castDiff_gt _ _ (by omega) (by omega)]; omega),
    if_pos ((castDiff_gt _ _ (by omega) (by omega)).2 h1), if_pos (by omega)]

theorem balanceRotate_right_double (x rx : α) (l rl rr : Tree α) (h rh : Nat)
    (bl : height l < 2147483640) (br : rh < 2147483640)
    (h1 : height l + 1 < rh) (h2 : height rr < height rl) :
    balanceRotate (.node x l (.node rx rl rr rh) h) =
      doubleRotateLeftChild (.node x l (.node rx rl rr rh) h) := by
  simp only [balanceRotate, height_node]
  rw [if_neg (by rw [castDiff_gt _ _ (by omega) (by omega)]; omega),
    if_pos ((castDiff_gt _ _ (by omega) (by omega)).2 h1), if_neg (by omega)]

/-! ## Safety of rebalancing on stale height fields -/

theorem rotateLeftChild_defined (x lx : α) (ll lr r : Tree α) (h lh : Nat) :
    ∃ y a b c, rotateLeftChild (.node x (.node lx ll lr lh) r h) = some (.node y a b c) := by
  simp only [rotateLeftChild]
  exact ⟨_, _, _, _, rfl⟩

theorem rotateRightChild_defined (x : α) (l r : Tree α) (h : Nat) :
    ∃ y a b c, rotateRightChild (.node x l r h) = some (.node y a b c) := by
  cases r with
  | nil => exact ⟨x, l, .nil, h, by simp only [rotateRightChild]⟩
  | node rx rl rr rh =>
    simp only [rotateRightChild]
    exact ⟨_, _, _, _, rfl⟩

theorem doubleRotateRightChild_defined (x lx : α) (ll lr r : Tree α) (h lh : Nat) :
    ∃ y a b c, doubleRotateRightChild (.node x (.node lx ll lr lh) r h) =
      some (.node y a b c) := by
  obtain ⟨y1, a1, b1, c1, h1⟩ := rotateRightChild_defined lx ll lr lh
  simp only [doubleRotateRightChild]
  rw [h1, Option.some_bind]
  exact rotateLeftChild_defined x y1 a1 b1 r h c1

theorem doubleRotateLeftChild_defined (x rx rlx : α) (l rll rlr rr : Tree α) (h rh rlh : Nat) :
    ∃ y a b c, doubleRotateLeftChild (.node x l (.node rx (.node rlx rll rlr rlh) rr rh) h) =
      some (.node y a b c) := by
  obtain ⟨y1, a1, b1, c1, h1⟩ := rotateLeftChild_defined rx rlx rll rlr rr rh rlh
  simp only [doubleRotateLeftChild]
  rw [h1, Option.some_bind]
  exact rotateRightChild_defined x l (.node y1 a1 b1 c1) h

theorem balanceRotate_defined (x : α) (l r : Tree α) (h : Nat)
    (bl : height l < 2147483648) (br : height r < 2147483648) :
    ∃ y a b c, balanceRotate (.node x l r h) = some (.node y a b c) := by
  by_cases c1 : castDiff (height l) (height r) > ALLOWED_UNBALANCE
  · have d1 := (castDiff_gt _ _ bl br).1 c1
    cases l with
    | nil => simp only [height_nil] at d1; omega
    | node lx ll lr lh =>
      simp only [balanceRotate]
      rw [if_pos c1]
      by_cases c2 : height ll ≥ height lr
      · rw [if_pos c2]
        exact rotateLeftChild_defined x lx ll lr r h lh
      · rw [if_neg c2]
        exact doubleRotateRightChild_defined x lx ll lr r h lh
  · by_cases c3 : castDiff (height r) (height l) > ALLOWED_UNBALANCE
    · have d3 := (castDiff_gt _ _ br bl).1 c3
      cases r with
      | nil => simp only [height_nil] at d3; omega
      | node rx rl rr rh =>
        simp only [balanceRotate]
        rw [if_neg c1, if_pos c3]
        by_cases c4 : height rr ≥ height rl
        · rw [if_pos c4]
          exact rotateRightChild_defined x l (.node rx rl rr rh) h
        · rw [if_neg c4]
          cases rl with
          | nil => simp only [height_nil] at c4; omega
          | node rlx rll rlr rlh =>
            exact doubleRotateLeftChild_defined x rx rlx l rll rlr rr h rh rlh
    · simp only [balanceRotate]
      rw [if_neg c1, if_neg c3]
      exact ⟨_, _, _, _, rfl⟩

theorem balance_defined_of_children (x : α) (l r : Tree α) (h : Nat)
    (bl : height l < 2147483648) (br : height r < 2147483648) :
    ∃ t1, balance (.node x l r h) = some t1 := by
  obtain ⟨y, a, b, c, h1⟩ := balanceRotate_defined x l r h bl br
  rw [balance_node, h1, Option.some_bind]
  simp only [setHeight]
  exact ⟨_, rfl⟩

theorem left_exists_of_heavy (l r : Tree α) (bl : height l < 2147483648)
    (br : height r < 2147483648) (c : castDiff (height l) (height r) > ALLOWED_UNBALANCE) :
    ∃ lx ll lr lh, l = .node lx ll lr lh := by
  have d := (castDiff_gt _ _ bl br).1 c
  cases l with
  | nil => simp only [height_nil] at d; omega
  | node lx ll lr lh => exact ⟨lx, ll, lr, lh, rfl⟩

theorem inner_exists_of_taller (a b : Tree α) (c : height a < height b) :
    ∃ y p q k, b = .node y p q k := by
  cases b with
  | nil => simp only [height_nil] at c; omega
  | node y p q k => exact ⟨y, p, q, k, rfl⟩

/-! ## Removal on stale height fields -/

theorem cachedBelow_mono {m n : Nat} (hmn : m ≤ n) {t : Tree α} (h : CachedBelow m t) :
    CachedBelow n t := by
  induction t with
  | nil => trivial
  | node x l r hh ihl ihr => exact ⟨Nat.lt_of_lt_of_le h.1 hmn, ihl h.2.1, ihr h.2.2⟩

theorem height_le_of_cachedBelow {m : Nat} {t : Tree α} (h : CachedBelow m t) :
    height t ≤ m := by
  cases t with
  | nil => exact Nat.zero_le m
  | node x l r hh => exact Nat.le_of_lt h.1

theorem height_lt_bound_of_cachedBelow {m : Nat} (hm : m ≤ 2147483640) {t : Tree α}
    (h : CachedBelow m t) : height t < 2147483640 :=
  height_lt_of_cachedBelow (by omega) (cachedBelow_mono hm h)

theorem balance_below (x : α) (l r : Tree α) (h m : Nat) (hm : m ≤ 2147483640)
    (cl : CachedBelow m l) (cr : CachedBelow m r) :
    ∃ t1, balance (.node x l r h) = some t1 ∧ CachedBelow (m + 2) t1 := by
  have bl := height_lt_bound_of_cachedBelow hm cl
  have br := height_lt_bound_of_cachedBelow hm cr
  have el := height_le_of_cachedBelow cl
  have er := height_le_of_cachedBelow cr
  have ml := cachedBelow_mono (Nat.le_add_right m 2) cl
  have mr := cachedBelow_mono (Nat.le_add_right m 2) cr
  by_cases c : height l ≤ height r + 1 ∧ height r ≤ height l + 1
  · exact ⟨_, balance_keep x l r h bl br c.1 c.2, by omega, ml, mr⟩
  · by_cases c1 : height r + 1 < height l
    · cases l with
      | nil => simp only [height_nil] at c1; omega
      | node lx ll lr lh =>
        obtain ⟨hlh, cll, clr⟩ := cl
        have bll := height_lt_bound_of_cachedBelow hm cll
        have blr := height_lt_bound_of_cachedBelow hm clr
        have ell := height_lt_of_cachedBelow (by omega) cll
        have elr := height_lt_of_cachedBelow (by omega) clr
        have mll := cachedBelow_mono (Nat.le_add_right m 2) cll
        have mlr := cachedBelow_mono (Nat.le_add_right m 2) clr
        simp only [height_node] at *
        by_cases c2 : height lr ≤ height ll
        · exact ⟨_, balance_left_single x lx ll lr r h lh bll blr bl br c1 c2,
            by omega, mll, by omega, mlr, mr⟩
        · cases lr with
          | nil => simp only [height_nil] at c2; omega
          | node lrx lrl lrr lrh =>
            obtain ⟨hlrh, clrl, clrr⟩ := clr
            have blrl := height_lt_bound_of_cachedBelow hm clrl
            have blrr := height_lt_bound_of_cachedBelow hm clrr
            have elrl := height_lt_of_cachedBelow (by omega) clrl
            have elrr := height_lt_of_cachedBelow (by omega) clrr
            have mlrl := cachedBelow_mono (Nat.le_add_right m 2) clrl
            have mlrr := cachedBelow_mono (Nat.le_add_right m 2) clrr
            simp only [height_node] at *
            exact ⟨_, balance_left_double x lx lrx ll lrl lrr r h lh lrh bll blrl blrr bl br c1
              (by omega), by omega, ⟨by omega, mll, mlrl⟩, by omega, mlrr, mr⟩
    · have c3 : height l + 1 < height r := by omega
      cases r with
      | nil => simp only [height_nil] at c3; omega
      | node rx rl rr rh =>
        obtain ⟨hrh, crl, crr⟩ := cr
        have brl := height_lt_bound_of_cachedBelow hm crl
        have brr := height_lt_bound_of_cachedBelow hm crr
        have erl := height_lt_of_cachedBelow (by omega) crl
        have err := height_lt_of_cachedBelow (by omega) crr
        have mrl := cachedBelow_mono (Nat.le_add_right m 2) crl
        have mrr := cachedBelow_mono (Nat.le_add_right m 2) crr
        simp only [height_node] at *
        by_cases c2 : height rl ≤ height rr
        · exact ⟨_, balance_right_single x rx l rl rr h rh brl brr bl br c3 c2,
            by omega, ⟨by omega, ml, mrl⟩, mrr⟩
        · cases rl with
          | nil => simp only [height_nil] at c2; omega
          | node rlx rll rlr rlh =>
            obtain ⟨hrlh, crll, crlr⟩ := crl
            have brll := height_lt_bound_of_cachedBelow hm crll
            have brlr := height_lt_bound_of_cachedBelow hm crlr
            have erll := height_lt_of_cachedBelow (by omega) crll
            have erlr := height_lt_of_cachedBelow (by omega) crlr
            have mrll := cachedBelow_mono (Nat.le_add_right m 2) crll
            have mrlr := cachedBelow_mono (Nat.le_add_right m 2) crlr
            simp only [height_node] at *
            exact ⟨_, balance_right_double x rx rlx l rll rlr rr h rh rlh brll brlr brr bl br c3
              (by omega), by omega, ⟨by omega, ml, mrll⟩, by omega, mrlr, mrr⟩


theorem removeImpl_below (lt : α → α → Bool) (t : Tree α) (m : Nat) (c : CachedBelow m t)
    (b : m + 2 * realHeight t ≤ 2147483640) (e : α) (sz : Nat) :
    ∃ t1 sz1, removeImpl lt t e sz = some (t1, sz1) ∧
      CachedBelow (m + 2 * realHeight t) t1 := by
  induction t generalizing e sz with
  | nil => exact ⟨.nil, sz, removeImpl_nil lt e sz, trivial⟩
  | node key l r h ihl ihr =>
    obtain ⟨_, cl, cr⟩ := c
    simp only [realHeight] at b ⊢
    by_cases c1 : lt e key = true
    · obtain ⟨l1, sz1, hl1, cl1⟩ := ihl cl (by omega) e sz
      obtain ⟨t1, ht1, ct1⟩ := balance_below key l1 r h
        (m + 2 * max (realHeight l) (realHeight r)) (by omega)
        (cachedBelow_mono (by omega) cl1) (cachedBelow_mono (by omega) cr)
      refine ⟨t1, sz1, ?_, cachedBelow_mono (by omega) ct1⟩
      rw [removeImpl_left lt key l r h e sz c1, hl1, Option.some_bind, ht1]
      rfl
    · have c1f : lt e key = false := by simpa using c1
      by_cases c2 : lt key e = true
      · obtain ⟨r1, sz1, hr1, cr1⟩ := ihr cr (by omega) e sz
        obtain ⟨t1, ht1, ct1⟩ := balance_below key l r1 h
          (m + 2 * max (realHeight l) (realHeight r)) (by omega)
          (cachedBelow_mono (by omega) cl) (cachedBelow_mono (by omega) cr1)
        refine ⟨t1, sz1, ?_, cachedBelow_mono (by omega) ct1⟩
        rw [removeImpl_right lt key l r h e sz c1f c2, hr1, Option.some_bind, ht1]
        rfl
      · have c2f : lt key e = false := by simpa using c2
        cases l with
        | nil =>
          cases r with
          | nil => exact ⟨.nil, decSize sz, removeImpl_leaf lt key h e sz c1f c2f, trivial⟩
          | node rx rl rr rh =>
            obtain ⟨_, crl, crr⟩ := cr
            obtain ⟨t1, ht1, ct1⟩ := balance_below rx rl rr rh m (by omega) crl crr
            refine ⟨t1, decSize sz, ?_, cachedBelow_mono (by omega) ct1⟩
            rw [removeImpl_onlyRight lt key rx rl rr h rh e sz c1f c2f, ht1]
            rfl
        | node lx ll lr lh =>
          cases r with
          | nil =>
            obtain ⟨_, cll, clr⟩ := cl
            obtain ⟨t1, ht1, ct1⟩ := balance_below lx ll lr lh m (by omega) cll clr
            refine ⟨t1, decSize sz, ?_, cachedBelow_mono (by omega) ct1⟩
            rw [removeImpl_onlyLeft lt key lx ll lr h lh e sz c1f c2f, ht1]
            rfl
          | node rx rl rr rh =>
            obtain ⟨e1, he1, _⟩ := minimum_element rx rl rr rh
            obtain ⟨r1, sz1, hr1, cr1⟩ := ihr cr (by omega) e1 sz
            obtain ⟨t1, ht1, ct1⟩ := balance_below e1 (.node lx ll lr lh) r1 h
              (m + 2 * max (realHeight (Tree.node lx ll lr lh)) (realHeight (Tree.node rx rl rr rh)))
              (by omega) (cachedBelow_mono (by omega) cl) (cachedBelow_mono (by omega) cr1)
            refine ⟨t1, decSize sz1, ?_, cachedBelow_mono (by omega) ct1⟩
            rw [removeImpl_two lt key lx rx ll lr rl rr h lh rh e sz c1f c2f, he1,
              Option.some_bind, hr1, Option.some_bind, ht1]
            rfl

theorem clone_cachedBelow (t : Tree α) : CachedBelow 1 (clone t) := by
  induction t with
  | nil => trivial
  | node x l r h ihl ihr => exact ⟨Nat.zero_lt_one, ihl, ihr⟩

theorem cachedBelow_of_cachedOk {t : Tree α} (h : CachedOk t) :
    CachedBelow (realHeight t + 1) t := by
  induction t with
  | nil => trivial
  | node x l r hh ihl ihr =>
    obtain ⟨cl, cr, he⟩ := h
    have el := height_eq_realHeight cl
    have er := height_eq_realHeight cr
    simp only [realHeight]
    exact ⟨by omega, cachedBelow_mono (by omega) (ihl cl), cachedBelow_mono (by omega) (ihr cr)⟩

end General

/-! ## The comparison of the concrete scenarios -/

theorem ltNat_strictWeakOrder : StrictWeakOrder ltNat := by
  refine ⟨?_, ?_, ?_⟩
  · intro a; simp [ltNat]
  · intro a b c; simp only [ltNat, decide_eq_true_eq]; omega
  · intro a b c; simp only [ltNat, decide_eq_false_iff_not]; omega

theorem ltNat_total (a b : Nat) (h1 : ltNat a b = false) (h2 : ltNat b a = false) : a = b := by
  simp only [ltNat, decide_eq_false_iff_not] at h1 h2
  omega

/-! ## Claims -/

/-- C1: for every sequence of `insert`/`remove` calls on an initially empty tree (fewer
than `2^64` calls, the range of `size_type`), after each call, that is after every
initial segment of the sequence, the calls have returned and every node of the tree
satisfies `|h(left) - h(right)| ≤ 1` for the true subtree height `h`. -/
theorem balanced_after_each_call (lt : α → α → Bool) (ops : List (Op α))
    (hlen : ops.length < SIZE_MOD) (k : Nat) :
    ∃ t, AVL.run lt (ops.take k) = some t ∧ Balanced t.m_root := by
  have hk : (ops.take k).length < SIZE_MOD := by
    rw [List.length_take]
    omega
  obtain ⟨t, h, v, _⟩ := run_valid lt (ops.take k) hk
  exact ⟨t, h, v.2⟩

theorem balanced_after_each_call_witness :
    ([Op.insert 3, Op.insert 2, Op.insert 7, Op.insert 1, Op.insert 5, Op.insert 8,
        Op.insert 4, Op.remove 3] : List (Op Nat)).length < SIZE_MOD ∧
      ∃ t, AVL.run ltNat (([Op.insert 3, Op.insert 2, Op.insert 7, Op.insert 1, Op.insert 5,
        Op.insert 8, Op.insert 4, Op.remove 3] : List (Op Nat)).take 8) = some t ∧
        Balanced t.m_root :=
  ⟨by decide, balanced_after_each_call ltNat _ (by decide) 8⟩

/-- C2 (code at the failing input): after inserting 3, 2, 7, 1, 5, 8, 4 and calling
`remove(3)`, the in-order export is `[1, 2, 5, 4, 7, 8]`, which is not
non-decreasing: `__minimum` stopped at the node 5 although 4 lies below it. -/
theorem remove_breaks_order :
    (AVL.run ltNat [Op.insert 3, Op.insert 2, Op.insert 7, Op.insert 1, Op.insert 5,
        Op.insert 8, Op.insert 4, Op.remove 3]).map AVL.toContainer = some [1, 2, 5, 4, 7, 8] ∧
      ¬ NonDecreasing ltNat [1, 2, 5, 4, 7, 8] := by
  refine ⟨by decide, ?_⟩
  unfold NonDecreasing
  decide

/-- C3 (code at the failing input): after inserting 2, 1, 3 and calling `remove(2)`,
`size()` is 1 while two nodes are reachable from the root: the two-children branch
decrements `m_size` once in the nested call and once more itself. -/
theorem size_differs_from_node_count :
    (AVL.run ltNat [Op.insert 2, Op.insert 1, Op.insert 3, Op.remove 2]).map
        (fun t => (t.size, nodes t.m_root, t.toContainer)) = some (1, 2, [1, 3]) := by
  decide

/-- C4 (code at the failing input): after inserting 3, 2, 7, 1, 5, 8, 4 and calling
`remove(3)`, the element 4 (inserted once, never removed) is still stored but
`find(4)` returns not-found. -/
theorem find_misses_stored_element :
    (AVL.run ltNat [Op.insert 3, Op.insert 2, Op.insert 7, Op.insert 1, Op.insert 5,
        Op.insert 8, Op.insert 4, Op.remove 3]).map
        (fun t => (decide (4 ∈ t.toContainer), t.find ltNat 4)) = some (true, none) := by
  decide

/-- C5: inserting the elements of `xs` (fewer than `2^64` of them) one by one into an
empty tree under a strict weak ordering succeeds; `toContainer` then yields a
permutation of `xs` that is non-decreasing, `size()` equals the length of `xs`, and
when equivalent elements are equal (a total order) the export is exactly `xs` sorted
with duplicates kept. -/
theorem insert_all_sorted (lt : α → α → Bool) (swo : StrictWeakOrder lt) (xs : List α)
    (hlen : xs.length < SIZE_MOD) :
    ∃ t, AVL.run lt (xs.map Op.insert) = some t ∧ t.toContainer.Perm xs ∧
      NonDecreasing lt t.toContainer ∧ t.size = xs.length ∧
      ((∀ a b, lt a b = false → lt b a = false → a = b) →
        t.toContainer = xs.insertionSort (fun a b => lt b a = false)) := by
  obtain ⟨t, h, _, p, s, z⟩ := map_insert_runFrom lt swo xs AVL.empty valid_nil
    List.Pairwise.nil (by simpa [AVL.empty, nodes] using hlen)
    (by simpa [AVL.empty] using hlen)
  have p1 : t.toContainer.Perm xs := by
    rw [toContainer_eq]
    simpa [AVL.empty, inorder] using p
  have s1 : NonDecreasing lt t.toContainer := by
    rw [toContainer_eq]
    exact s
  refine ⟨t, h, p1, s1, by simpa [AVL.size, AVL.empty] using z, ?_⟩
  intro tot
  haveI : IsAntisymm α (fun a b => lt b a = false) := ⟨fun a b h1 h2 => tot a b h2 h1⟩
  haveI : IsTrans α (fun a b => lt b a = false) := ⟨fun a b c h1 h2 => swo.neg_trans h2 h1⟩
  haveI : IsTotal α (fun a b => lt b a = false) := ⟨fun a b => by
    cases hab : lt a b with
    | false => exact Or.inr rfl
    | true => exact Or.inl (swo.asymm hab)⟩
  exact List.eq_of_perm_of_sorted
    (p1.trans (List.perm_insertionSort (fun a b => lt b a = false) xs).symm) s1
    (List.sorted_insertionSort (fun a b => lt b a = false) xs)

theorem insert_all_sorted_witness :
    StrictWeakOrder ltNat ∧ ([5, 8, 4, 6, 5] : List Nat).length < SIZE_MOD ∧
    ∃ t, AVL.run ltNat (([5, 8, 4, 6, 5] : List Nat).map Op.insert) = some t ∧
      t.toContainer.Perm [5, 8, 4, 6, 5] ∧
      NonDecreasing ltNat t.toContainer ∧ t.size = ([5, 8, 4, 6, 5] : List Nat).length ∧
      ((∀ a b, ltNat a b = false → ltNat b a = false → a = b) →
        t.toContainer = ([5, 8, 4, 6, 5] : List Nat).insertionSort
          (fun a b => ltNat b a = false)) :=
  ⟨ltNat_strictWeakOrder, by decide,
    insert_all_sorted ltNat ltNat_strictWeakOrder [5, 8, 4, 6, 5] (by decide)⟩

/-- C6 (code at the failing input): in the tree built by inserting 5, 8, 4, 6, 5,
`find(5)` returns a match and `size()` is 5; after `remove(5)` four elements are
stored but `size()` is 3, not 4: the matched node has two children. -/
theorem remove_two_children_size :
    (AVL.run ltNat [Op.insert 5, Op.insert 8, Op.insert 4, Op.insert 6, Op.insert 5]).map
        (fun t => (t.find ltNat 5, t.size,
          (t.remove ltNat 5).map (fun t1 => (t1.size, t1.toContainer)))) =
      some (some 5, 5, some (3, [4, 5, 6, 8])) := by
  decide

/-- C7: for every tree that satisfies the BST ordering invariant over a total order and
every element `e` stored in it, `remove(e)` returns and the multiset of stored
elements afterwards is the multiset before with exactly one occurrence of `e` taken
out. The cached height fields may be valid or stale (as in a copy); they are only
required to lie below some `m` with `m + 2 * h ≤ HEIGHT_BOUND` for the true height
`h`, so that no height computation wraps. -/
theorem remove_takes_one_occurrence [DecidableEq α] (lt : α → α → Bool)
    (swo : StrictWeakOrder lt) (tot : ∀ a b, lt a b = false → lt b a = false → a = b)
    (t : AVL α) (hb : IsBST lt t.m_root) (m : Nat) (hc : CachedBelow m t.m_root)
    (hh : m + 2 * realHeight t.m_root ≤ HEIGHT_BOUND) (e : α) (he : e ∈ t.toContainer) :
    ∃ t1, t.remove lt e = some t1 ∧
      (t1.toContainer : Multiset α) = (t.toContainer : Multiset α).erase e := by
  unfold HEIGHT_BOUND at hh
  obtain ⟨r1, sz1, hr1, _⟩ := removeImpl_below lt t.m_root m hc hh e t.m_size
  rw [toContainer_eq] at he
  have p := removeImpl_perm lt swo tot t.m_root e t.m_size r1 sz1 hb he hr1
  refine ⟨⟨r1, sz1⟩, ?_, ?_⟩
  · unfold AVL.remove
    rw [hr1]
    rfl
  · rw [toContainer_eq, toContainer_eq]
    have q : (inorder t.m_root : Multiset α) = e ::ₘ (inorder r1 : Multiset α) := by
      rw [Multiset.cons_coe]
      exact Multiset.coe_eq_coe.2 p
    rw [q, Multiset.erase_cons_head]

theorem remove_takes_one_occurrence_witness :
    StrictWeakOrder ltNat ∧ (∀ a b, ltNat a b = false → ltNat b a = false → a = b) ∧
    AVL.copy (⟨Tree.node 2 (Tree.node 1 Tree.nil Tree.nil 1) (Tree.node 3 Tree.nil Tree.nil 1) 2,
        3⟩ : AVL Nat) =
      ⟨Tree.node 2 (Tree.node 1 Tree.nil Tree.nil 0) (Tree.node 3 Tree.nil Tree.nil 0) 0, 3⟩ ∧
    IsBST ltNat (Tree.node 2 (Tree.node 1 Tree.nil Tree.nil 0) (Tree.node 3 Tree.nil Tree.nil 0) 0) ∧
    CachedBelow 1
      (Tree.node (2 : Nat) (Tree.node 1 Tree.nil Tree.nil 0) (Tree.node 3 Tree.nil Tree.nil 0) 0) ∧
    ∃ t1, AVL.remove ltNat
        (⟨Tree.node 2 (Tree.node 1 Tree.nil Tree.nil 0) (Tree.node 3 Tree.nil Tree.nil 0) 0, 3⟩ :
          AVL Nat) 2 = some t1 ∧
      (t1.toContainer : Multiset Nat) = (([1, 2, 3] : List Nat) : Multiset Nat).erase 2 :=
  ⟨ltNat_strictWeakOrder, ltNat_total, by decide,
    by simp [IsBST, inorder, ltNat], by simp [CachedBelow],
    remove_takes_one_occurrence ltNat ltNat_strictWeakOrder ltNat_total
      ⟨Tree.node 2 (Tree.node 1 Tree.nil Tree.nil 0) (Tree.node 3 Tree.nil Tree.nil 0) 0, 3⟩
      (by simp [IsBST, inorder, ltNat]) 1 (by simp [CachedBelow])
      (by simp [realHeight, HEIGHT_BOUND]) 2 (by decide)⟩

/-- C8: for every tree reached from empty by fewer than `2^64` `insert`/`remove` calls
under a strict weak ordering and every element `e` for which `find(e)` returns
not-found, `remove(e)` returns the very same tree: shape, stored elements, cached
heights and `size()` are unchanged. -/
theorem remove_of_absent_is_noop (lt : α → α → Bool) (swo : StrictWeakOrder lt)
    (ops : List (Op α)) (hlen : ops.length < SIZE_MOD) (t : AVL α)
    (hrun : AVL.run lt ops = some t) (e : α) (hfind : t.find lt e = none) :
    t.remove lt e = some t := by
  obtain ⟨t0, h0, v, n⟩ := run_valid lt ops hlen
  rw [hrun] at h0
  obtain rfl := Option.some.inj h0
  have hs := height_small t.m_root v (by omega)
  have := removeImpl_notFound lt swo t.m_root v (by omega) e t.m_size hfind
  unfold AVL.remove
  rw [this]
  rfl

theorem remove_of_absent_is_noop_witness :
    StrictWeakOrder ltNat ∧
    ([Op.insert 2, Op.insert 1, Op.insert 3] : List (Op Nat)).length < SIZE_MOD ∧
    AVL.run ltNat [Op.insert 2, Op.insert 1, Op.insert 3] =
      some ⟨Tree.node 2 (Tree.node 1 Tree.nil Tree.nil 1) (Tree.node 3 Tree.nil Tree.nil 1) 2, 3⟩ ∧
    AVL.find ltNat
      ⟨Tree.node 2 (Tree.node 1 Tree.nil Tree.nil 1) (Tree.node 3 Tree.nil Tree.nil 1) 2, 3⟩ 7 =
        none ∧
    AVL.remove ltNat
      ⟨Tree.node 2 (Tree.node 1 Tree.nil Tree.nil 1) (Tree.node 3 Tree.nil Tree.nil 1) 2, 3⟩ 7 =
      some ⟨Tree.node 2 (Tree.node 1 Tree.nil Tree.nil 1) (Tree.node 3 Tree.nil Tree.nil 1) 2, 3⟩ :=
  ⟨ltNat_strictWeakOrder, by decide, by decide, by decide,
    remove_of_absent_is_noop ltNat ltNat_strictWeakOrder
      [Op.insert 2, Op.insert 1, Op.insert 3] (by decide) _ (by decide) 7 (by decide)⟩

/-- C9 (code at the failing input): in the tree built by inserting 1, 2 the root 1 has
only a right child 2; `toContainer` gives `[1, 2]`, but the walk from `begin()` with
`operator++` up to `end()` visits `[1]` only, whatever the number of steps allowed:
the constructor does not push the right subtree of the first node. -/
theorem iterator_skips_right_of_first :
    (AVL.run ltNat [Op.insert 1, Op.insert 2]).map
        (fun t => (t.m_root, t.toContainer)) =
      some (Tree.node 1 Tree.nil (Tree.node 2 Tree.nil Tree.nil 1) 2, [1, 2]) ∧
    ∀ fuel, iterate (fuel + 1)
      (AVL.begin ⟨Tree.node 1 Tree.nil (Tree.node 2 Tree.nil Tree.nil 1) 2, 2⟩) = some [1] := by
  refine ⟨by decide, ?_⟩
  intro fuel
  cases fuel <;> rfl

/-- C10 (code at the failing input): inserting 3, 2, 7, 1, 5, 8, 4 and then calling
`remove` once for each of them leaves the element 5 in the tree (`isEmpty()` is
false) and `size()` at `2^64 - 1`; already for 2, 1, 3 the tree ends empty with
`size()` at `2^64 - 1`. -/
theorem remove_all_leaves_rest :
    (AVL.run ltNat (([3, 2, 7, 1, 5, 8, 4] : List Nat).map Op.insert ++
        ([3, 2, 7, 1, 5, 8, 4] : List Nat).map Op.remove)).map
        (fun t => (t.isEmpty, t.size, t.toContainer)) =
      some (false, 18446744073709551615, [5]) ∧
    (AVL.run ltNat (([2, 1, 3] : List Nat).map Op.insert ++
        ([2, 1, 3] : List Nat).map Op.remove)).map
        (fun t => (t.isEmpty, t.size)) = some (true, 18446744073709551615) := by
  constructor <;> decide!

/-- C11: for every tree, the copy-constructed tree reports the same `size()`, exports
the same in-order sequence with `toContainer`, and has the same shape. -/
theorem copy_same_content (t : AVL α) :
    t.copy.size = t.size ∧ t.copy.toContainer = t.toContainer ∧
      shape t.copy.m_root = shape t.m_root := by
  refine ⟨rfl, ?_, clone_shape t.m_root⟩
  rw [toContainer_eq, toContainer_eq]
  exact clone_inorder t.m_root

/-- C12: every tree reached from empty by `insert`/`remove` calls (fewer than `2^64`
of them) has logarithmic height: with `n` nodes and true height `h`,
`Fib(h + 2) ≤ n + 1`, hence `2 ^ (h / 2) ≤ n + 1`. -/
theorem reachable_height_logarithmic (lt : α → α → Bool) (ops : List (Op α))
    (hlen : ops.length < SIZE_MOD) :
    ∃ t, AVL.run lt ops = some t ∧
      Nat.fib (realHeight t.m_root + 2) ≤ nodes t.m_root + 1 ∧
      2 ^ (realHeight t.m_root / 2) ≤ nodes t.m_root + 1 := by
  obtain ⟨t, h, v, _⟩ := run_valid lt ops hlen
  have hf := fib_le_nodes t.m_root v.2
  exact ⟨t, h, hf, le_trans (two_pow_le_fib _) hf⟩

theorem reachable_height_logarithmic_witness :
    ([Op.insert 3, Op.insert 2, Op.insert 7, Op.insert 1, Op.insert 5, Op.insert 8,
        Op.insert 4, Op.remove 3] : List (Op Nat)).length < SIZE_MOD ∧
      ∃ t, AVL.run ltNat [Op.insert 3, Op.insert 2, Op.insert 7, Op.insert 1, Op.insert 5,
        Op.insert 8, Op.insert 4, Op.remove 3] = some t ∧
        Nat.fib (realHeight t.m_root + 2) ≤ nodes t.m_root + 1 ∧
        2 ^ (realHeight t.m_root / 2) ≤ nodes t.m_root + 1 :=
  ⟨by decide, reachable_height_logarithmic ltNat _ (by decide)⟩

/-- C13: for every tree, move construction leaves the source empty (`isEmpty()` true,
`size()` 0) and gives the destination the root, the element sequence and the size of
the source. -/
theorem move_transfers_content (t : AVL α) :
    t.move.2.isEmpty = true ∧ t.move.2.size = 0 ∧ t.move.1.m_root = t.m_root ∧
      t.move.1.toContainer = t.toContainer ∧ t.move.1.size = t.size :=
  ⟨rfl, rfl, rfl, rfl, rfl⟩

/-- C14: `insert` and `remove` preserve the cached-height invariant: when every
height field equals `1 + max` of the children's fields before the call (and the
height is below `HEIGHT_BOUND`, so that no height computation wraps), the call
returns and the same holds at every node afterwards. -/
theorem cached_heights_preserved (lt : α → α → Bool) (t : AVL α) (hc : CachedOk t.m_root)
    (hh : realHeight t.m_root < HEIGHT_BOUND) (e : α) :
    (∃ t1, t.insert lt e = some t1 ∧ CachedOk t1.m_root) ∧
      (∃ t1, t.remove lt e = some t1 ∧ CachedOk t1.m_root) := by
  rw [← height_eq_realHeight hc] at hh
  constructor
  · obtain ⟨r1, hr1, c1, _⟩ := insertImpl_cached lt e t.m_root hc hh
    refine ⟨⟨r1, incSize t.m_size⟩, ?_, c1⟩
    unfold AVL.insert
    rw [hr1]
    rfl
  · obtain ⟨r1, sz1, hr1, c1, _⟩ := removeImpl_cached lt t.m_root hc hh e t.m_size
    refine ⟨⟨r1, sz1⟩, ?_, c1⟩
    unfold AVL.remove
    rw [hr1]
    rfl

theorem cached_heights_preserved_witness :
    CachedOk (Tree.node 2 (Tree.node 1 Tree.nil Tree.nil 1) (Tree.node 3 Tree.nil Tree.nil 1) 2) ∧
    realHeight (Tree.node 2 (Tree.node 1 Tree.nil Tree.nil 1) (Tree.node 3 Tree.nil Tree.nil 1) 2)
      < HEIGHT_BOUND ∧
    ((∃ t1, AVL.insert ltNat
        (⟨Tree.node 2 (Tree.node 1 Tree.nil Tree.nil 1) (Tree.node 3 Tree.nil Tree.nil 1) 2, 3⟩ :
          AVL Nat) 4 = some t1 ∧ CachedOk t1.m_root) ∧
      (∃ t1, AVL.remove ltNat
        (⟨Tree.node 2 (Tree.node 1 Tree.nil Tree.nil 1) (Tree.node 3 Tree.nil Tree.nil 1) 2, 3⟩ :
          AVL Nat) 4 = some t1 ∧ CachedOk t1.m_root)) :=
  ⟨by simp [CachedOk, height], by simp [realHeight, HEIGHT_BOUND],
    cached_heights_preserved ltNat
      ⟨Tree.node 2 (Tree.node 1 Tree.nil Tree.nil 1) (Tree.node 3 Tree.nil Tree.nil 1) 2, 3⟩
      (by simp [CachedOk, height]) (by simp [realHeight, HEIGHT_BOUND]) 4⟩

/-- C15 (code at the failing input): the copy of the one-element tree holding 1 has a
leaf with height field 0 where the source has 1, so the cached-height invariant fails
in the copy; and inserting 7 into the copy of the tree built from 4, 2, 6, 1 rotates
on the stale fields and ends with subtrees of true heights 3 and 1 under the root. -/
theorem clone_resets_heights :
    (AVL.run ltNat [Op.insert 1]).map (fun t => (t.m_root, t.copy.m_root)) =
      some (Tree.node 1 Tree.nil Tree.nil 1, Tree.node 1 Tree.nil Tree.nil 0) ∧
    ¬ CachedOk (Tree.node (1 : Nat) Tree.nil Tree.nil 0) ∧
    ((AVL.run ltNat [Op.insert 4, Op.insert 2, Op.insert 6, Op.insert 1]).bind
        (fun t => t.copy.insert ltNat 7)).map (fun t => t.m_root) =
      some (Tree.node 6
        (Tree.node 4 (Tree.node 2 (Tree.node 1 Tree.nil Tree.nil 0) Tree.nil 0) Tree.nil 1)
        (Tree.node 7 Tree.nil Tree.nil 1) 2) ∧
    ¬ Balanced (Tree.node (6 : Nat)
        (Tree.node 4 (Tree.node 2 (Tree.node 1 Tree.nil Tree.nil 0) Tree.nil 0) Tree.nil 1)
        (Tree.node 7 Tree.nil Tree.nil 1) 2) := by
  refine ⟨by decide, ?_, by decide, ?_⟩
  · simp [CachedOk, height]
  · simp [Balanced, realHeight]


/-- C16: for every tree that satisfies the BST ordering invariant under a strict weak
ordering and every element `e`, `find(e)` returns only a stored element equivalent to
`e`, and it returns one if and only if the tree holds an element equivalent to `e`
(not-found otherwise). -/
theorem find_correct (lt : α → α → Bool) (swo : StrictWeakOrder lt) (t : AVL α)
    (hb : IsBST lt t.m_root) (e : α) :
    (∀ x, t.find lt e = some x → x ∈ t.toContainer ∧ Equivalent lt x e) ∧
      ((∃ x, t.find lt e = some x) ↔ ∃ y ∈ t.toContainer, Equivalent lt y e) ∧
      (t.find lt e = none ↔ ¬ ∃ y ∈ t.toContainer, Equivalent lt y e) := by
  have sound : ∀ x, t.find lt e = some x → x ∈ t.toContainer ∧ Equivalent lt x e := by
    intro x hx
    rw [toContainer_eq]
    exact searchImpl_sound lt t.m_root e x hx
  have iff1 : (∃ x, t.find lt e = some x) ↔ ∃ y ∈ t.toContainer, Equivalent lt y e := by
    constructor
    · rintro ⟨x, hx⟩
      exact ⟨x, (sound x hx).1, (sound x hx).2⟩
    · intro hy
      rw [toContainer_eq] at hy
      exact searchImpl_complete lt swo t.m_root e hb hy
  refine ⟨sound, iff1, ?_⟩
  rw [← iff1]
  cases hf : t.find lt e with
  | none => simp
  | some x => simp

theorem find_correct_witness :
    StrictWeakOrder ltNat ∧
    IsBST ltNat (Tree.node 2 (Tree.node 1 Tree.nil Tree.nil 1) (Tree.node 3 Tree.nil Tree.nil 1) 2) ∧
    ((∀ x, AVL.find ltNat
        (⟨Tree.node 2 (Tree.node 1 Tree.nil Tree.nil 1) (Tree.node 3 Tree.nil Tree.nil 1) 2, 3⟩ :
          AVL Nat) 3 = some x →
        x ∈ AVL.toContainer (⟨Tree.node 2 (Tree.node 1 Tree.nil Tree.nil 1)
          (Tree.node 3 Tree.nil Tree.nil 1) 2, 3⟩ : AVL Nat) ∧ Equivalent ltNat x 3) ∧
      ((∃ x, AVL.find ltNat
        (⟨Tree.node 2 (Tree.node 1 Tree.nil Tree.nil 1) (Tree.node 3 Tree.nil Tree.nil 1) 2, 3⟩ :
          AVL Nat) 3 = some x) ↔
        ∃ y ∈ AVL.toContainer (⟨Tree.node 2 (Tree.node 1 Tree.nil Tree.nil 1)
          (Tree.node 3 Tree.nil Tree.nil 1) 2, 3⟩ : AVL Nat), Equivalent ltNat y 3) ∧
      (AVL.find ltNat
        (⟨Tree.node 2 (Tree.node 1 Tree.nil Tree.nil 1) (Tree.node 3 Tree.nil Tree.nil 1) 2, 3⟩ :
          AVL Nat) 3 = none ↔
        ¬ ∃ y ∈ AVL.toContainer (⟨Tree.node 2 (Tree.node 1 Tree.nil Tree.nil 1)
          (Tree.node 3 Tree.nil Tree.nil 1) 2, 3⟩ : AVL Nat), Equivalent ltNat y 3)) :=
  ⟨ltNat_strictWeakOrder, by simp [IsBST, inorder, ltNat],
    find_correct ltNat ltNat_strictWeakOrder
      ⟨Tree.node 2 (Tree.node 1 Tree.nil Tree.nil 1) (Tree.node 3 Tree.nil Tree.nil 1) 2, 3⟩
      (by simp [IsBST, inorder, ltNat]) 3⟩

/-- C17 (code at the failing input): the tree built by inserting 3, 2, 7, 1, 5, 8, 4
has the right subtree 7 with left child 5 and grandchild 4; `__minimum` of that
subtree returns the node 5, which has a left child and is not the leftmost node 4,
and its element 5 is greater than the stored 4. -/
theorem minimum_stops_after_one_step :
    (AVL.run ltNat [Op.insert 3, Op.insert 2, Op.insert 7, Op.insert 1, Op.insert 5,
        Op.insert 8, Op.insert 4]).map (fun t => t.m_root) =
      some (Tree.node 3 (Tree.node 2 (Tree.node 1 Tree.nil Tree.nil 1) Tree.nil 2)
        (Tree.node 7 (Tree.node 5 (Tree.node 4 Tree.nil Tree.nil 1) Tree.nil 2)
          (Tree.node 8 Tree.nil Tree.nil 1) 3) 4) ∧
    __minimum (Tree.node (7 : Nat) (Tree.node 5 (Tree.node 4 Tree.nil Tree.nil 1) Tree.nil 2)
        (Tree.node 8 Tree.nil Tree.nil 1) 3) =
      some (Tree.node 5 (Tree.node 4 Tree.nil Tree.nil 1) Tree.nil 2) ∧
    leftmostNode (Tree.node (7 : Nat) (Tree.node 5 (Tree.node 4 Tree.nil Tree.nil 1) Tree.nil 2)
        (Tree.node 8 Tree.nil Tree.nil 1) 3) = Tree.node 4 Tree.nil Tree.nil 1 ∧
    ltNat 4 5 = true := by
  refine ⟨by decide, by decide, by decide, by decide⟩


/-- C18: for every node whose two subtrees each satisfy the AVL balance invariant and
the cached-height invariant and whose subtree heights differ by at most 2 (heights
below `HEIGHT_BOUND`, so that no height computation wraps), `balance` returns a
subtree that satisfies both invariants at every node; it selects no rotation when the
difference is at most 1, a single rotation when the outer grandchild is at least as
tall as the inner one, and a double rotation otherwise. -/
theorem balance_restores_invariants (x : α) (l r : Tree α) (h : Nat)
    (vl : Valid l) (vr : Valid r)
    (bl : realHeight l < HEIGHT_BOUND) (br : realHeight r < HEIGHT_BOUND)
    (d1 : realHeight l ≤ realHeight r + 2) (d2 : realHeight r ≤ realHeight l + 2) :
    (∃ t1, balance (.node x l r h) = some t1 ∧ Balanced t1 ∧ CachedOk t1) ∧
      (realHeight l ≤ realHeight r + 1 → realHeight r ≤ realHeight l + 1 →
        balanceRotate (.node x l r h) = some (.node x l r h)) ∧
      (∀ lx ll lr lh, l = .node lx ll lr lh → realHeight r + 1 < realHeight l →
        (realHeight lr ≤ realHeight ll →
          balanceRotate (.node x l r h) = rotateLeftChild (.node x l r h)) ∧
        (realHeight ll < realHeight lr →
          balanceRotate (.node x l r h) = doubleRotateRightChild (.node x l r h))) ∧
      (∀ rx rl rr rh, r = .node rx rl rr rh → realHeight l + 1 < realHeight r →
        (realHeight rl ≤ realHeight rr →
          balanceRotate (.node x l r h) = rotateRightChild (.node x l r h)) ∧
        (realHeight rr < realHeight rl →
          balanceRotate (.node x l r h) = doubleRotateLeftChild (.node x l r h))) := by
  have el := height_eq_realHeight vl.1
  have er := height_eq_realHeight vr.1
  unfold HEIGHT_BOUND at bl br
  rw [← el] at bl d1 d2
  rw [← er] at br d1 d2
  refine ⟨?_, ?_, ?_, ?_⟩
  · obtain ⟨t1, h1, v1, _⟩ := balance_spec x l r h vl vr bl br d1 d2
    exact ⟨t1, h1, v1.2, v1.1⟩
  · intro c1 c2
    rw [← el, ← er] at c1 c2
    exact balanceRotate_keep x l r h (by omega) (by omega) c1 c2
  · intro lx ll lr lh hl c1
    subst hl
    obtain ⟨vll, vlr, _, _, _⟩ := (valid_node_iff _ _ _ _).1 vl
    rw [← el, ← er] at c1
    rw [← height_eq_realHeight vll.1, ← height_eq_realHeight vlr.1]
    simp only [height_node] at bl c1
    exact ⟨fun c2 => balanceRotate_left_single x lx ll lr r h lh bl br c1 c2,
      fun c2 => balanceRotate_left_double x lx ll lr r h lh bl br c1 c2⟩
  · intro rx rl rr rh hr c1
    subst hr
    obtain ⟨vrl, vrr, _, _, _⟩ := (valid_node_iff _ _ _ _).1 vr
    rw [← el, ← er] at c1
    rw [← height_eq_realHeight vrl.1, ← height_eq_realHeight vrr.1]
    simp only [height_node] at br c1
    exact ⟨fun c2 => balanceRotate_right_single x rx l rl rr h rh bl br c1 c2,
      fun c2 => balanceRotate_right_double x rx l rl rr h rh bl br c1 c2⟩


theorem balance_restores_invariants_witness :
    Valid (Tree.node (2 : Nat) (Tree.node 1 Tree.nil Tree.nil 1) Tree.nil 2) ∧
    Valid (Tree.nil : Tree Nat) ∧
    realHeight (Tree.node (2 : Nat) (Tree.node 1 Tree.nil Tree.nil 1) Tree.nil 2) ≤
      realHeight (Tree.nil : Tree Nat) + 2 ∧
    ∃ t1, balance (Tree.node (3 : Nat) (Tree.node 2 (Tree.node 1 Tree.nil Tree.nil 1) Tree.nil 2)
        Tree.nil 0) = some t1 ∧ Balanced t1 ∧ CachedOk t1 :=
  ⟨by simp [Valid, CachedOk, Balanced, realHeight, height],
    by simp [Valid, CachedOk, Balanced],
    by simp [realHeight],
    (balance_restores_invariants (3 : Nat) (Tree.node 2 (Tree.node 1 Tree.nil Tree.nil 1) Tree.nil 2)
      Tree.nil 0 (by simp [Valid, CachedOk, Balanced, realHeight, height])
      (by simp [Valid, CachedOk, Balanced]) (by simp [realHeight, HEIGHT_BOUND])
      (by simp [realHeight, HEIGHT_BOUND]) (by simp [realHeight]) (by simp [realHeight])).1⟩

/-- C19: rebalancing never changes the in-order sequence: whenever `balance` returns
(after no rotation, a single rotation or a double rotation) the in-order sequence of
the result is that of its argument, and it does return for every subtree whose cached
height fields are all below `HEIGHT_BOUND`. -/
theorem balance_keeps_inorder (t : Tree α) :
    (∀ t1, balance t = some t1 → inorder t1 = inorder t) ∧
      (CachedBelow HEIGHT_BOUND t → ∃ t1, balance t = some t1 ∧ inorder t1 = inorder t) := by
  refine ⟨fun t1 h => balance_inorder h, ?_⟩
  intro hb
  cases t with
  | nil => exact ⟨.nil, balance_nil, rfl⟩
  | node x l r h =>
    obtain ⟨t1, h1⟩ := balance_defined x l r h hb.2.1 hb.2.2
    exact ⟨t1, h1, balance_inorder h1⟩

theorem balance_keeps_inorder_witness :
    CachedBelow HEIGHT_BOUND
      (Tree.node (3 : Nat) (Tree.node 2 (Tree.node 1 Tree.nil Tree.nil 1) Tree.nil 2) Tree.nil 0) ∧
    ∃ t1, balance (Tree.node (3 : Nat) (Tree.node 2 (Tree.node 1 Tree.nil Tree.nil 1) Tree.nil 2)
        Tree.nil 0) = some t1 ∧ inorder t1 = [1, 2, 3] :=
  ⟨by simp [CachedBelow, HEIGHT_BOUND],
    (balance_keeps_inorder (Tree.node (3 : Nat)
      (Tree.node 2 (Tree.node 1 Tree.nil Tree.nil 1) Tree.nil 2) Tree.nil 0)).2
      (by simp [CachedBelow, HEIGHT_BOUND])⟩

/-- C20 (counterexample): inserting 5 into the one-node tree holding 5, an equivalent
element, is not the insertion into the right subtree followed by `balance`: the new
node becomes the left child. -/
theorem equal_element_not_to_the_right :
    Equivalent ltNat 5 5 ∧
    insertImpl ltNat (Tree.node 5 Tree.nil Tree.nil 1) 5 ≠
      (insertImpl ltNat Tree.nil 5).bind
        (fun r1 => balance (Tree.node 5 Tree.nil r1 1)) ∧
    insertImpl ltNat (Tree.node 5 Tree.nil Tree.nil 1) 5 =
      some (Tree.node 5 (Tree.node 5 Tree.nil Tree.nil 1) Tree.nil 2) := by
  refine ⟨by decide, by decide, by decide⟩

/-- C20 (amended): an inserted element equivalent to a node's element (indeed any
element that the node's element does not compare less than) descends into that node's
left subtree: `insertImpl` recurses on `root->left` and then rebalances the node. -/
theorem equal_element_goes_left (lt : α → α → Bool) (x : α) (l r : Tree α) (h : Nat) (e : α)
    (he : Equivalent lt x e) :
    insertImpl lt (.node x l r h) e =
      (insertImpl lt l e).bind fun l1 => balance (.node x l1 r h) := by
  rw [insertImpl_node, he.1]
  rfl

theorem equal_element_goes_left_witness :
    Equivalent ltNat 5 5 ∧
    insertImpl ltNat (Tree.node 5 Tree.nil Tree.nil 1) 5 =
      (insertImpl ltNat Tree.nil 5).bind fun l1 => balance (Tree.node 5 l1 Tree.nil 1) :=
  ⟨by decide, equal_element_goes_left ltNat 5 Tree.nil Tree.nil 1 5 (by decide)⟩

/-- C21 (code at the failing input): with the first copy's `find`, the tree holding
the single element 8 answers `find(5)` with the stored 8, which is not equivalent to
5, although no stored element is equivalent to 5; in the tree built by inserting
8, 4, 6, 5 it answers `find(7)` with 8. The second test of `searchImpl` repeats the
first, so the descent never goes left and every node not less than the key matches. -/
theorem first_copy_find_returns_other_element :
    (AVL.run ltNat [Op.insert 8]).map
        (fun t => (t.toContainer, FirstCopy.find ltNat t 5)) = some ([8], some 8) ∧
    ¬ Equivalent ltNat 8 5 ∧
    (AVL.run ltNat [Op.insert 8, Op.insert 4, Op.insert 6, Op.insert 5]).map
        (fun t => (t.toContainer, FirstCopy.find ltNat t 7)) = some ([4, 5, 6, 8], some 8) ∧
    ¬ Equivalent ltNat 8 7 := by
  refine ⟨by decide, by decide, by decide, by decide⟩

/-- C22 (counterexample): a node without a left child whose right child carries the
stale height field `2^31 + 2` makes `balance` take the left-heavy branch, because the
difference wraps to `2^31 - 2` in `int`, and dereference the null `t->left`. -/
theorem balance_null_dereference_on_large_field :
    castDiff (height (Tree.nil : Tree Nat))
        (height (Tree.node (2 : Nat) Tree.nil Tree.nil 2147483650)) = 2147483646 ∧
    balance (Tree.node (1 : Nat) Tree.nil (Tree.node 2 Tree.nil Tree.nil 2147483650) 0) = none := by
  refine ⟨by decide, by decide⟩

/-- C22 (amended): `balance` is safe for every non-null node whose two children carry
cached height fields below `2^31`, whether the fields are valid or stale: whenever the
left-heavy branch is taken `t->left` exists, whenever the double rotation is chosen
there `t->left->right` exists, symmetrically on the right, and `balance` with its
rotations returns without reaching a null dereference. -/
theorem balance_safe_below_int_range (x : α) (l r : Tree α) (h : Nat)
    (bl : height l < 2147483648) (br : height r < 2147483648) :
    (castDiff (height l) (height r) > ALLOWED_UNBALANCE →
      ∃ lx ll lr lh, l = .node lx ll lr lh ∧
        (¬ height ll ≥ height lr → ∃ y p q k, lr = .node y p q k)) ∧
    (castDiff (height r) (height l) > ALLOWED_UNBALANCE →
      ∃ rx rl rr rh, r = .node rx rl rr rh ∧
        (¬ height rr ≥ height rl → ∃ y p q k, rl = .node y p q k)) ∧
    ∃ t1, balance (.node x l r h) = some t1 := by
  refine ⟨?_, ?_, balance_defined_of_children x l r h bl br⟩
  · intro c
    obtain ⟨lx, ll, lr, lh, rfl⟩ := left_exists_of_heavy l r bl br c
    exact ⟨lx, ll, lr, lh, rfl, fun c2 => inner_exists_of_taller ll lr (by omega)⟩
  · intro c
    obtain ⟨rx, rl, rr, rh, rfl⟩ := left_exists_of_heavy r l br bl c
    exact ⟨rx, rl, rr, rh, rfl, fun c2 => inner_exists_of_taller rr rl (by omega)⟩

theorem balance_safe_below_int_range_witness :
    height (Tree.node (2 : Nat) (Tree.node 1 Tree.nil Tree.nil 0) Tree.nil 7) < 2147483648 ∧
    height (Tree.nil : Tree Nat) < 2147483648 ∧
    ∃ t1, balance (Tree.node (3 : Nat) (Tree.node 2 (Tree.node 1 Tree.nil Tree.nil 0) Tree.nil 7)
        Tree.nil 0) = some t1 :=
  ⟨by decide, by decide,
    (balance_safe_below_int_range (3 : Nat) (Tree.node 2 (Tree.node 1 Tree.nil Tree.nil 0) Tree.nil 7)
      Tree.nil 0 (by decide) (by decide)).2.2⟩

end AVLTree
